import Mathlib

/-!
# mgreport: document viewer zoom policy and PDF export walker

A shallow embedding of `src/mgreport.go` (package `report`).

* Screen and page quantities are `float32`/`float64` in the source; they are
  modelled as exact rationals `ℚ`.
* The fyne object graph is modelled as a finite tree `Obj`.  Every object
  carries the geometry every `fyne.CanvasObject` exposes (position, size,
  visibility flag).
* The PDF backend (`gofpdf`) is modelled by the sequence of calls made on it.
* The charset translator returned by `UnicodeTranslatorFromDescriptor("")`
  is a parameter `tr : String → String`.
* Geometry is what an object holds when the code reads it.  The layout the
  toolkit runs when a page is added to the viewer or the viewer is refreshed
  is not in the source; it is a parameter `tk : Toolkit`, an arbitrary
  function on the stored pages that may change positions and sizes and
  nothing else.
* The final `OutputFileAndClose` is outside the model.
-/

namespace MGReport

/-! ## Constants -/

/-- Source constant `A4WidthBase = 595.0`. -/
def A4WidthBase : ℚ := 595

/-- Source constant `A4HeightBase = 842.0`. -/
def A4HeightBase : ℚ := 842

/-- Source constant `BaseFontSize = 14.0`. -/
def BaseFontSize : ℚ := 14

/-- Local `ratio := 210.0 / A4WidthBase` of `ExportToPDF`. -/
def ratio : ℚ := 210 / A4WidthBase

/-! ## Data model -/

/-- What every `fyne.CanvasObject` exposes: `Position()`, `Size()`, `Visible()`. -/
structure Geom where
  posX : ℚ
  posY : ℚ
  width : ℚ
  height : ℚ
  visible : Bool
  deriving DecidableEq, Repr

/-- A `fyne.CanvasObject` value, by dynamic type.

* `nil`: the nil interface value;
* `label`: `*widget.Label` with its `Text`;
* `text`: `*canvas.Text` with its `Text` and `TextSize`;
* `separator`: `*widget.Separator`;
* `container`: `*fyne.Container` with its `Objects`;
* `themeOverride`: `*container.ThemeOverride` with the `zoom` of its
  `zoomTheme` and its `Content`;
* `other`: any other object kind (rectangle, button, ...). -/
inductive Obj where
  | nil : Obj
  | label (g : Geom) (txt : String) : Obj
  | text (g : Geom) (txt : String) (textSize : ℚ) : Obj
  | separator (g : Geom) : Obj
  | container (g : Geom) (objects : List Obj) : Obj
  | themeOverride (g : Geom) (zoom : ℚ) (content : Obj) : Obj
  | other (g : Geom) : Obj

/-- A `canvas.Rectangle` as far as the viewer touches it: `SetMinSize` and `Resize`. -/
structure Rectangle where
  minW : ℚ
  minH : ℚ
  sizeW : ℚ
  sizeH : ℚ
  deriving DecidableEq, Repr

/-- Source struct `pageData`. -/
structure pageData where
  rect : Rectangle
  cont : Obj

/-- Source struct `DocViewer`: the page list and the zoom factor. -/
structure DocViewer where
  pages : List pageData
  zoomFactor : ℚ

/-- One call on the `gofpdf` backend, with its arguments in source order. -/
inductive PdfCall where
  | AddPage : PdfCall
  | SetFont (family style : String) (size : ℚ) : PdfCall
  | SetXY (x y : ℚ) : PdfCall
  | MultiCell (w h : ℚ) (txt borderStr alignStr : String) (fill : Bool) : PdfCall
  | CellFormat (w h : ℚ) (txt borderStr : String) (ln : Nat) (alignStr : String)
      (fill : Bool) (link : Nat) (linkStr : String) : PdfCall
  | SetDrawColor (r g b : Nat) : PdfCall
  | SetLineWidth (width : ℚ) : PdfCall
  | Line (x1 y1 x2 y2 : ℚ) : PdfCall
  deriving DecidableEq, Repr

/-! ## Operations -/

/-- Source `NewDocViewer`: no pages, zoom factor `1.0`. -/
def NewDocViewer : DocViewer := { pages := [], zoomFactor := 1 }

mutual
/-- Source `updateCanvasObjects`: a `*canvas.Text` gets `TextSize = BaseFontSize * factor`,
a `*fyne.Container` is descended into; every other object is left as it is. -/
def updateCanvasObjects : Obj → ℚ → Obj
  | .text g txt _, factor => .text g txt (BaseFontSize * factor)
  | .container g objects, factor => .container g (updateCanvasObjectsList objects factor)
  | o, _ => o
/-- The `for _, child := range c.Objects` loop of `updateCanvasObjects`. -/
def updateCanvasObjectsList : List Obj → ℚ → List Obj
  | [], _ => []
  | child :: rest, factor => updateCanvasObjects child factor :: updateCanvasObjectsList rest factor
end

/-- A geometry with position and size forgotten: what layout cannot change. -/
def Geom.shape (g : Geom) : Geom :=
  { posX := 0, posY := 0, width := 0, height := 0, visible := g.visible }

mutual
/-- An object tree with every position and size forgotten: kinds, child order,
visibility flags, texts, text sizes and wrapper zooms are kept. -/
def Obj.shape : Obj → Obj
  | .nil => .nil
  | .label g txt => .label g.shape txt
  | .text g txt textSize => .text g.shape txt textSize
  | .separator g => .separator g.shape
  | .container g objects => .container g.shape (shapeList objects)
  | .themeOverride g zoom content => .themeOverride g.shape zoom content.shape
  | .other g => .other g.shape
/-- List counterpart of `Obj.shape`. -/
def shapeList : List Obj → List Obj
  | [] => []
  | child :: rest => child.shape :: shapeList rest
end

/-- What layout cannot change of a stored page: the minimum size of its rectangle
and the shape of its content tree. -/
def pageData.frame (p : pageData) : ℚ × ℚ × Obj := (p.rect.minW, p.rect.minH, p.cont.shape)

/-- The part of the GUI toolkit the viewer relies on: the layout pass run on the
stored pages when an object is added to the viewer's box or the viewer is
refreshed.  It is not in the source; all that is known of it is that it moves and
resizes objects and changes nothing else. -/
structure Toolkit where
  relayout : List pageData → List pageData
  keeps : ∀ ps, (relayout ps).map pageData.frame = ps.map pageData.frame

/-- The nil interface value. -/
def Obj.isNil : Obj → Bool
  | .nil => true
  | _ => false

/-- Geometry of a widget fresh from its fyne constructor (`container.NewThemeOverride`),
before any layout: position `(0,0)`, size `(0,0)`, not hidden. -/
def freshGeom : Geom := { posX := 0, posY := 0, width := 0, height := 0, visible := true }

/-- Source `DocViewer.AddPage`: a white rectangle of the zoomed A4 size, the text
sizes of `cont` rescaled to the current zoom, `cont` wrapped in a theme override
carrying the current zoom, the pair appended to `pages`, and the layout pass that
`dv.content.Add` and `dv.content.Refresh` run.  `container.NewThemeOverride`
refreshes the object it wraps, so a nil `cont` fails (`none`). -/
def DocViewer.AddPage (tk : Toolkit) (dv : DocViewer) (cont : Obj) : Option DocViewer :=
  if cont.isNil then none else
    let sizeW := A4WidthBase * dv.zoomFactor
    let sizeH := A4HeightBase * dv.zoomFactor
    let paper : Rectangle := { minW := sizeW, minH := sizeH, sizeW := sizeW, sizeH := sizeH }
    let themedContent := Obj.themeOverride freshGeom dv.zoomFactor
      (updateCanvasObjects cont dv.zoomFactor)
    some { dv with pages := tk.relayout (dv.pages ++ [{ rect := paper, cont := themedContent }]) }

/-- Body of the `for _, p := range dv.pages` loop of `SetZoom`, with the clamped factor. -/
def setZoomPage (factor : ℚ) (p : pageData) : pageData :=
  let newW := A4WidthBase * factor
  let newH := A4HeightBase * factor
  { rect := { minW := newW, minH := newH, sizeW := newW, sizeH := newH }
    cont := match p.cont with
      | .themeOverride g _ content => .themeOverride g factor (updateCanvasObjects content factor)
      | c => c }

/-- Source `DocViewer.SetZoom`: the assignments the function makes itself.  The layout
pass its `Refresh` calls run afterwards is `DocViewer.refresh`. -/
def DocViewer.SetZoom (dv : DocViewer) (factor : ℚ) : DocViewer :=
  let factor := if factor < 1 / 10 then 1 / 10 else factor
  { pages := dv.pages.map (setZoomPage factor), zoomFactor := factor }

/-- The layout pass run by `dv.content.Refresh()` and `dv.Refresh()`. -/
def DocViewer.refresh (tk : Toolkit) (dv : DocViewer) : DocViewer :=
  { dv with pages := tk.relayout dv.pages }

/-- Source `DocViewer.GetZoom`. -/
def DocViewer.GetZoom (dv : DocViewer) : ℚ := dv.zoomFactor

/-- Local `absX` (and, with the Y fields, `absY`) of `drawAbsolute`. -/
def absCoord (pos offset : ℚ) : ℚ := (pos + offset) * ratio

/-- Locals `pdfX`, `pdfY` of `drawAbsolute`: the absolute coordinate plus the 10mm margin. -/
def pdfCoord (pos offset : ℚ) : ℚ := absCoord pos offset + 10

/-- Locals `objW`, `objH` of `drawAbsolute`. -/
def objSize (size : ℚ) : ℚ := size * ratio

mutual
/-- The closure `drawAbsolute` of `ExportToPDF`; the result is the list of backend
calls it makes, in order. -/
def drawAbsolute (tr : String → String) (dv : DocViewer) : Obj → ℚ → ℚ → List PdfCall
  | .nil, _, _ => []
  | .themeOverride g _ content, offsetX, offsetY =>
    if !g.visible then [] else drawAbsolute tr dv content offsetX offsetY
  | .label g txt, offsetX, offsetY =>
    if !g.visible then [] else
      let fSize := BaseFontSize * dv.zoomFactor
      [ .SetFont "Arial" "" fSize,
        .SetXY (pdfCoord g.posX offsetX) (pdfCoord g.posY offsetY),
        .MultiCell (objSize g.width) (fSize * (4 / 10)) (tr txt) "" "L" false ]
  | .text g txt textSize, offsetX, offsetY =>
    if !g.visible then [] else
      let fSize := textSize
      [ .SetFont "Arial" "" fSize,
        .SetXY (pdfCoord g.posX offsetX) (pdfCoord g.posY offsetY),
        .CellFormat (objSize g.width) (fSize * (5 / 10)) (tr txt) "" 0 "L" false 0 "" ]
  | .separator g, offsetX, offsetY =>
    if !g.visible then [] else
      let middleY := pdfCoord g.posY offsetY + objSize g.height / 2
      [ .SetDrawColor 180 180 180,
        .SetLineWidth (2 / 10),
        .Line (pdfCoord g.posX offsetX) middleY (pdfCoord g.posX offsetX + objSize g.width) middleY,
        .SetDrawColor 0 0 0 ]
  | .container g objects, offsetX, offsetY =>
    if !g.visible then [] else
      drawAbsoluteList tr dv objects (g.posX + offsetX) (g.posY + offsetY)
  | .other _, _, _ => []
/-- The `for _, child := range realObj.Objects` loop of `drawAbsolute`. -/
def drawAbsoluteList (tr : String → String) (dv : DocViewer) : List Obj → ℚ → ℚ → List PdfCall
  | [], _, _ => []
  | child :: rest, offsetX, offsetY =>
    drawAbsolute tr dv child offsetX offsetY ++ drawAbsoluteList tr dv rest offsetX offsetY
end

/-- The `for _, p := range dv.pages` loop of `ExportToPDF`. -/
def exportPages (tr : String → String) (dv : DocViewer) : List pageData → List PdfCall
  | [] => []
  | p :: rest => PdfCall.AddPage :: (drawAbsolute tr dv p.cont 0 0 ++ exportPages tr dv rest)

/-- Source `DocViewer.ExportToPDF`: the calls made on the backend before the file is written. -/
def DocViewer.ExportToPDF (tr : String → String) (dv : DocViewer) : List PdfCall :=
  exportPages tr dv dv.pages

/-- A call of the package API: `AddPage(cont)` or `SetZoom(factor)`. -/
inductive Op where
  | addPage (cont : Obj) : Op
  | setZoom (factor : ℚ) : Op

/-- One API call applied to the viewer, the toolkit's layout pass included; `none`
when the call fails. -/
def Op.apply (tk : Toolkit) (dv : DocViewer) : Op → Option DocViewer
  | .addPage cont => dv.AddPage tk cont
  | .setZoom factor => some ((dv.SetZoom factor).refresh tk)

/-- A sequence of API calls applied to a viewer; `none` as soon as one fails. -/
def runFrom (tk : Toolkit) : DocViewer → List Op → Option DocViewer
  | dv, [] => some dv
  | dv, op :: rest =>
    match op.apply tk dv with
    | some dv2 => runFrom tk dv2 rest
    | none => none

/-- The viewer after a sequence of API calls on a viewer from `NewDocViewer`. -/
def runOps (tk : Toolkit) (ops : List Op) : Option DocViewer := runFrom tk NewDocViewer ops

/-- The zoom factor after a sequence of API calls started at zoom `z`: the clamped
factor of the last `SetZoom`. -/
def finalZoom : ℚ → List Op → ℚ
  | z, [] => z
  | z, .addPage _ :: rest => finalZoom z rest
  | _, .setZoom factor :: rest => finalZoom (max factor (1 / 10)) rest

/-! ## Vocabulary of the specification -/

/-- The visibility flag `obj.Visible()`; the nil object, which the walker's guard
skips together with the invisible ones, counts as not visible. -/
def Obj.Visible : Obj → Bool
  | .nil => false
  | .label g _ => g.visible
  | .text g _ _ => g.visible
  | .separator g => g.visible
  | .container g _ => g.visible
  | .themeOverride g _ _ => g.visible
  | .other g => g.visible

/-- Leaf kinds of the specification: text-label, styled-text, separator. -/
def Obj.isLeaf : Obj → Bool
  | .label _ _ => true
  | .text _ _ _ => true
  | .separator _ => true
  | _ => false

/-- The `i`-th child of a node: `Objects[i]` of a container, the single `Content`
(index `0`) of a theme wrapper; no other kind has children. -/
def Obj.child? : Obj → Nat → Option Obj
  | .container _ objects, i => objects[i]?
  | .themeOverride _ _ content, 0 => some content
  | _, _ => none

/-- The node reached from `root` by following the child indices of `path`. -/
def descend : Obj → List Nat → Option Obj
  | o, [] => some o
  | o, i :: rest =>
    match o.child? i with
    | some c => descend c rest
    | none => none

/-- What a node adds to the offset of its children according to the specification:
a container its own X position, every other kind (theme wrappers included) zero. -/
def Obj.stepX : Obj → ℚ
  | .container g _ => g.posX
  | _ => 0

/-- The Y counterpart of `Obj.stepX`. -/
def Obj.stepY : Obj → ℚ
  | .container g _ => g.posY
  | _ => 0

/-- Sum of the X positions of the container nodes that are proper ancestors of the
node at `path`. -/
def ancestorSumX : Obj → List Nat → ℚ
  | _, [] => 0
  | o, i :: rest =>
    match o.child? i with
    | some c => o.stepX + ancestorSumX c rest
    | none => 0

/-- Sum of the Y positions of the container nodes that are proper ancestors of the
node at `path`. -/
def ancestorSumY : Obj → List Nat → ℚ
  | _, [] => 0
  | o, i :: rest =>
    match o.child? i with
    | some c => o.stepY + ancestorSumY c rest
    | none => 0

/-- Every proper ancestor of the node at `path` is visible. -/
def ancestorsVisible : Obj → List Nat → Bool
  | _, [] => true
  | o, i :: rest =>
    match o.child? i with
    | some c => o.Visible && ancestorsVisible c rest
    | none => false

/-- The backend calls the walker makes on `root` (entered with the given offset)
before it enters the node at `path`: within each container on the way, the calls
for the children stored before the one the path goes through. -/
def callsBefore (tr : String → String) (dv : DocViewer) :
    List Nat → Obj → ℚ → ℚ → List PdfCall
  | [], _, _, _ => []
  | i :: rest, .container g objects, offsetX, offsetY =>
    drawAbsoluteList tr dv (objects.take i) (g.posX + offsetX) (g.posY + offsetY) ++
      (match objects[i]? with
       | some c => callsBefore tr dv rest c (g.posX + offsetX) (g.posY + offsetY)
       | none => [])
  | _ :: rest, .themeOverride _ _ content, offsetX, offsetY =>
    callsBefore tr dv rest content offsetX offsetY
  | _ :: _, _, _, _ => []

/-- The backend calls the walker makes on `root` after it has left the node at
`path`: within each container on the way, the calls for the children stored after
the one the path goes through. -/
def callsAfter (tr : String → String) (dv : DocViewer) :
    List Nat → Obj → ℚ → ℚ → List PdfCall
  | [], _, _, _ => []
  | i :: rest, .container g objects, offsetX, offsetY =>
    (match objects[i]? with
     | some c => callsAfter tr dv rest c (g.posX + offsetX) (g.posY + offsetY)
     | none => []) ++
      drawAbsoluteList tr dv (objects.drop (i + 1)) (g.posX + offsetX) (g.posY + offsetY)
  | _ :: rest, .themeOverride _ _ content, offsetX, offsetY =>
    callsAfter tr dv rest content offsetX offsetY
  | _ :: _, _, _, _ => []

mutual
/-- The walk of specification section 4.3: the visible leaves of a tree in depth-first
order, each with the offset accumulated from its ancestors.  An invisible node is
skipped with its subtree, a theme wrapper passes the offset on unchanged, a
container adds its own position and visits its children in stored order. -/
def visibleLeaves : Obj → ℚ → ℚ → List (Obj × ℚ × ℚ)
  | .nil, _, _ => []
  | .label g txt, ax, ay => if g.visible then [(.label g txt, ax, ay)] else []
  | .text g txt size, ax, ay => if g.visible then [(.text g txt size, ax, ay)] else []
  | .separator g, ax, ay => if g.visible then [(.separator g, ax, ay)] else []
  | .container g objects, ax, ay =>
    if g.visible then visibleLeavesList objects (g.posX + ax) (g.posY + ay) else []
  | .themeOverride g _ content, ax, ay => if g.visible then visibleLeaves content ax ay else []
  | .other _, _, _ => []
/-- The visible leaves of the children of a container, in stored order. -/
def visibleLeavesList : List Obj → ℚ → ℚ → List (Obj × ℚ × ℚ)
  | [], _, _ => []
  | child :: rest, ax, ay => visibleLeaves child ax ay ++ visibleLeavesList rest ax ay
end

/-- The draw actions of a sequence of leaves: for each, in order, the calls
`drawAbsolute` makes on that leaf at its accumulated offset. -/
def drawLeaves (tr : String → String) (dv : DocViewer) : List (Obj × ℚ × ℚ) → List PdfCall
  | [] => []
  | v :: rest => drawAbsolute tr dv v.1 v.2.1 v.2.2 ++ drawLeaves tr dv rest

/-- The export as the specification describes it: page by page, one new-page call
followed by the draw actions of the visible leaves of the page. -/
def exportSpec (tr : String → String) (dv : DocViewer) : List pageData → List PdfCall
  | [] => []
  | p :: rest =>
    PdfCall.AddPage :: (drawLeaves tr dv (visibleLeaves p.cont 0 0) ++ exportSpec tr dv rest)

/-- The content trees passed to `AddPage`, in call order. -/
def addedContents : List Op → List Obj
  | [] => []
  | .addPage cont :: rest => cont :: addedContents rest
  | .setZoom _ :: rest => addedContents rest

/-- The wrapped content tree `AddPage` builds for content `cont` at zoom `z`, before
any layout. -/
def themedAt (z : ℚ) (cont : Obj) : Obj :=
  .themeOverride freshGeom z (updateCanvasObjects cont z)

/-- The background rectangle `AddPage` and `SetZoom` set up at zoom `z`, before any
layout. -/
def paperAt (z : ℚ) : Rectangle :=
  { minW := A4WidthBase * z, minH := A4HeightBase * z,
    sizeW := A4WidthBase * z, sizeH := A4HeightBase * z }

/-- The page `AddPage` builds for content `cont` at zoom `z`, before any layout. -/
def pageAt (z : ℚ) (cont : Obj) : pageData := { rect := paperAt z, cont := themedAt z cont }

/-- Every proper ancestor of the node at `path` is a container. -/
def containersOnly : Obj → List Nat → Bool
  | _, [] => true
  | .container _ objects, i :: rest =>
    match objects[i]? with
    | some c => containersOnly c rest
    | none => false
  | _, _ :: _ => false

/-- A backend call with the arguments that depend on positions and widths
forgotten: cursor coordinates, cell widths and line end points. -/
def PdfCall.unplaced : PdfCall → PdfCall
  | .SetXY _ _ => .SetXY 0 0
  | .MultiCell _ h txt borderStr alignStr fill => .MultiCell 0 h txt borderStr alignStr fill
  | .CellFormat _ h txt borderStr ln alignStr fill link linkStr =>
    .CellFormat 0 h txt borderStr ln alignStr fill link linkStr
  | .Line _ _ _ _ => .Line 0 0 0 0
  | call => call

/-- A geometry moved and resized, its visibility flag kept. -/
def Geom.placed (g : Geom) (x y w h : ℚ) : Geom :=
  { posX := x, posY := y, width := w, height := h, visible := g.visible }

/-- The root of a tree moved and resized. -/
def Obj.place (x y w h : ℚ) : Obj → Obj
  | .nil => .nil
  | .label g txt => .label (g.placed x y w h) txt
  | .text g txt textSize => .text (g.placed x y w h) txt textSize
  | .separator g => .separator (g.placed x y w h)
  | .container g objects => .container (g.placed x y w h) objects
  | .themeOverride g zoom content => .themeOverride (g.placed x y w h) zoom content
  | .other g => .other (g.placed x y w h)

/-- One page laid out the way a padded stack does it: the rectangle takes its
minimum size, the wrapper sits inside a padding of 4 and its content fills it from
the wrapper's origin. -/
def fillPage (p : pageData) : pageData :=
  { rect := { minW := p.rect.minW, minH := p.rect.minH,
              sizeW := p.rect.minW, sizeH := p.rect.minH }
    cont := match p.cont with
      | .themeOverride g zoom content =>
        .themeOverride (g.placed 4 4 (p.rect.minW - 8) (p.rect.minH - 8)) zoom
          (content.place 0 0 (p.rect.minW - 8) (p.rect.minH - 8))
      | c => c }

/-- A toolkit whose layout pass is `fillPage` on every page. -/
def paddedFill : Toolkit :=
  { relayout := fun ps => ps.map fillPage
    keeps := by
      intro ps
      rw [List.map_map]
      apply List.map_congr_left
      intro p _
      have hplace : ∀ (c : Obj) (x y w h : ℚ), (c.place x y w h).shape = c.shape := by
        intro c x y w h
        cases c <;> simp [Obj.place, Obj.shape, Geom.shape, Geom.placed]
      cases hc : p.cont <;>
        simp [pageData.frame, fillPage, hc, Obj.shape, Geom.shape, Geom.placed, hplace] }

mutual
/-- Font sizes of the styled-text nodes reachable from a node through container
nodes only, in depth-first order. -/
def containerTextSizes : Obj → List ℚ
  | .text _ _ size => [size]
  | .container _ objects => containerTextSizesList objects
  | _ => []
/-- List counterpart of `containerTextSizes`. -/
def containerTextSizesList : List Obj → List ℚ
  | [] => []
  | child :: rest => containerTextSizes child ++ containerTextSizesList rest
end

mutual
/-- Font sizes of all the styled-text nodes of a tree, under containers and theme
wrappers alike, in depth-first order. -/
def allTextSizes : Obj → List ℚ
  | .text _ _ size => [size]
  | .container _ objects => allTextSizesList objects
  | .themeOverride _ _ content => allTextSizes content
  | _ => []
/-- List counterpart of `allTextSizes`. -/
def allTextSizesList : List Obj → List ℚ
  | [] => []
  | child :: rest => allTextSizes child ++ allTextSizesList rest
end

mutual
/-- No theme wrapper occurs in the tree. -/
def noThemeOverride : Obj → Bool
  | .themeOverride _ _ _ => false
  | .container _ objects => noThemeOverrideList objects
  | _ => true
/-- List counterpart of `noThemeOverride`. -/
def noThemeOverrideList : List Obj → Bool
  | [] => true
  | child :: rest => noThemeOverride child && noThemeOverrideList rest
end

/-- A draw colour of the backend, as red, green, blue. -/
structure Colour where
  r : Nat
  g : Nat
  b : Nat
  deriving DecidableEq, Repr

/-- The draw colour of a new `gofpdf` document and the one `SetDrawColor(0, 0, 0)` sets. -/
def black : Colour := ⟨0, 0, 0⟩

/-- The draw colour `SetDrawColor(180, 180, 180)` sets. -/
def gray : Colour := ⟨180, 180, 180⟩

/-- The draw colour after one backend call: only `SetDrawColor` changes it. -/
def PdfCall.colourAfter (c : Colour) : PdfCall → Colour
  | .SetDrawColor r g b => ⟨r, g, b⟩
  | _ => c

/-- The draw colour after a sequence of backend calls. -/
def drawColourAfter : Colour → List PdfCall → Colour
  | c, [] => c
  | c, call :: rest => drawColourAfter (call.colourAfter c) rest

/-- Each backend call paired with the draw colour in force when it is made. -/
def withDrawColour : Colour → List PdfCall → List (Colour × PdfCall)
  | _, [] => []
  | c, call :: rest => (c, call) :: withDrawColour (call.colourAfter c) rest

/-- The call draws a line. -/
def PdfCall.isLine : PdfCall → Bool
  | .Line _ _ _ _ => true
  | _ => false

/-- The call only sets line-drawing state (`SetDrawColor`, `SetLineWidth`). -/
def PdfCall.setsLineState : PdfCall → Bool
  | .SetDrawColor _ _ _ => true
  | .SetLineWidth _ => true
  | _ => false

/-- The colour discipline of a sequence of calls entered with the black draw colour:
lines are drawn in gray, every call that is neither a line nor a line-state setter
is made in black, and the colour is black again at the end. -/
def ColourDiscipline (l : List PdfCall) : Prop :=
  (∀ v ∈ withDrawColour black l,
      (v.2.isLine = true → v.1 = gray) ∧
      (v.2.isLine = false → v.2.setsLineState = false → v.1 = black)) ∧
    drawColourAfter black l = black

/-- The font size a `SetFont` call selects. -/
def PdfCall.fontSize? : PdfCall → Option ℚ
  | .SetFont _ _ size => some size
  | _ => none

/-- The height of the cell a `CellFormat` call emits. -/
def PdfCall.cellHeight? : PdfCall → Option ℚ
  | .CellFormat _ h _ _ _ _ _ _ _ => some h
  | _ => none

/-- A sample tree: a theme wrapper holding a container whose second child is a
theme wrapper around a container with a separator and a styled text. -/
def sampleTree : Obj :=
  .themeOverride ⟨7, 9, 0, 0, true⟩ 1
    (.container ⟨10, 20, 500, 700, true⟩
      [ .label ⟨0, 0, 100, 10, true⟩ "Header",
        .themeOverride ⟨100, 100, 0, 0, true⟩ 3
          (.container ⟨1, 2, 300, 300, true⟩
            [ .separator ⟨0, 30, 300, 4, true⟩,
              .text ⟨3, 4, 200, 20, true⟩ "Total: 100" 14 ]) ])

/-- The styled text at path `[0, 1, 0, 1]` of `sampleTree`. -/
def sampleLeaf : Obj := .text ⟨3, 4, 200, 20, true⟩ "Total: 100" 14

/-- A styled text created with font size 10 below a theme wrapper of its own. -/
def nestedWrapperPage : Obj :=
  .container ⟨0, 0, 500, 700, true⟩
    [ .themeOverride ⟨0, 0, 200, 20, true⟩ 1 (.text ⟨50, 50, 200, 20, true⟩ "Total: 100" 10) ]

/-- A viewer at zoom `1.0` whose single page holds `nestedWrapperPage`. -/
def nestedViewer : DocViewer :=
  { pages := [{ rect := paperAt 1, cont := .themeOverride freshGeom 1 nestedWrapperPage }]
    zoomFactor := 1 }

/-! ## Basic facts about the walker -/

theorem drawAbsoluteList_append (tr : String → String) (dv : DocViewer) (l1 l2 : List Obj)
    (ox oy : ℚ) :
    drawAbsoluteList tr dv (l1 ++ l2) ox oy
      = drawAbsoluteList tr dv l1 ox oy ++ drawAbsoluteList tr dv l2 ox oy := by
  induction l1 with
  | nil => simp [drawAbsoluteList]
  | cons a l ih => simp [drawAbsoluteList, ih]

theorem drawAbsolute_invisible (tr : String → String) (dv : DocViewer) (o : Obj) (ox oy : ℚ)
    (h : o.Visible = false) : drawAbsolute tr dv o ox oy = [] := by
  cases o <;> simp_all [drawAbsolute, Obj.Visible]

theorem drawAbsoluteList_split (tr : String → String) (dv : DocViewer) (l : List Obj) (i : Nat)
    (c : Obj) (ox oy : ℚ) (h : l[i]? = some c) :
    drawAbsoluteList tr dv l ox oy
      = drawAbsoluteList tr dv (l.take i) ox oy ++ drawAbsolute tr dv c ox oy
        ++ drawAbsoluteList tr dv (l.drop (i + 1)) ox oy := by
  induction l generalizing i with
  | nil => simp at h
  | cons a l ih =>
    cases i with
    | zero =>
      simp at h
      subst h
      simp [drawAbsoluteList]
    | succ j =>
      simp at h
      simp [drawAbsoluteList, ih j h]

theorem walk_decompose (tr : String → String) (dv : DocViewer) (path : List Nat) :
    ∀ (root leaf : Obj) (ox oy : ℚ), descend root path = some leaf →
      ancestorsVisible root path = true →
      drawAbsolute tr dv root ox oy
        = callsBefore tr dv path root ox oy
          ++ drawAbsolute tr dv leaf (ancestorSumX root path + ox) (ancestorSumY root path + oy)
          ++ callsAfter tr dv path root ox oy := by
  induction path with
  | nil =>
    intro root leaf ox oy hd _
    simp [descend] at hd
    subst hd
    simp [callsBefore, callsAfter, ancestorSumX, ancestorSumY]
  | cons i rest ih =>
    intro root leaf ox oy hd hv
    cases root with
    | container g objects =>
      simp only [descend, Obj.child?, ancestorsVisible, ancestorSumX, ancestorSumY] at hd hv ⊢
      cases hc : objects[i]? with
      | none => simp [hc] at hd
      | some c =>
        simp only [hc, Bool.and_eq_true, Obj.Visible] at hd hv ⊢
        have h := ih c leaf (g.posX + ox) (g.posY + oy) hd hv.2
        simp only [drawAbsolute, hv.1, callsBefore, callsAfter, hc, Obj.stepX, Obj.stepY]
        rw [drawAbsoluteList_split tr dv objects i c _ _ hc, h]
        simp [add_assoc, add_comm, add_left_comm]
    | themeOverride g z content =>
      cases i with
      | zero =>
        simp only [descend, Obj.child?, ancestorsVisible, ancestorSumX, ancestorSumY,
          Bool.and_eq_true, Obj.Visible] at hd hv ⊢
        have h := ih content leaf ox oy hd hv.2
        simp only [drawAbsolute, hv.1, callsBefore, callsAfter, Obj.stepX, Obj.stepY]
        simpa using h
      | succ j => simp [descend, Obj.child?] at hd
    | nil => simp [descend, Obj.child?] at hd
    | label g t => simp [descend, Obj.child?] at hd
    | text g t s => simp [descend, Obj.child?] at hd
    | separator g => simp [descend, Obj.child?] at hd
    | other g => simp [descend, Obj.child?] at hd

/-! ## Induction over object trees -/

theorem Obj.induct {P : Obj → Prop} (hnil : P .nil)
    (hlabel : ∀ g txt, P (.label g txt))
    (htext : ∀ g txt size, P (.text g txt size))
    (hsep : ∀ g, P (.separator g))
    (hcont : ∀ g objects, (∀ o ∈ objects, P o) → P (.container g objects))
    (hto : ∀ g z content, P content → P (.themeOverride g z content))
    (hother : ∀ g, P (.other g)) : ∀ o, P o := by
  intro o
  exact @Obj.rec P (fun os => ∀ o ∈ os, P o) hnil hlabel htext hsep
    (fun g objects ih => hcont g objects ih) (fun g z content ih => hto g z content ih) hother
    (by intro o h; simp at h)
    (by
      intro hd tl ihd itl o h
      rcases List.mem_cons.1 h with h | h
      · exact h ▸ ihd
      · exact itl o h) o

theorem updateCanvasObjectsList_eq_map (objects : List Obj) (factor : ℚ) :
    updateCanvasObjectsList objects factor
      = objects.map (fun o => updateCanvasObjects o factor) := by
  induction objects with
  | nil => simp [updateCanvasObjectsList]
  | cons a l ih => simp [updateCanvasObjectsList, ih]

theorem updateCanvasObjects_twice (o : Obj) (a b : ℚ) :
    updateCanvasObjects (updateCanvasObjects o a) b = updateCanvasObjects o b := by
  induction o using Obj.induct with
  | hcont g objects ih =>
    simp only [updateCanvasObjects, updateCanvasObjectsList_eq_map, List.map_map]
    congr 1
    apply List.map_congr_left
    intro o ho
    exact ih o ho
  | _ => simp [updateCanvasObjects]

theorem drawAbsolute_congr (tr : String → String) (dv dv2 : DocViewer)
    (h : dv.zoomFactor = dv2.zoomFactor) (o : Obj) :
    ∀ ox oy, drawAbsolute tr dv o ox oy = drawAbsolute tr dv2 o ox oy := by
  induction o using Obj.induct with
  | hcont g objects ih =>
    intro ox oy
    simp only [drawAbsolute]
    split
    · rfl
    · generalize g.posX + ox = a
      generalize g.posY + oy = b
      induction objects with
      | nil => simp [drawAbsoluteList]
      | cons c l ihl =>
        simp only [drawAbsoluteList]
        rw [ih c (List.mem_cons_self _ _), ihl (fun o ho => ih o (List.mem_cons_of_mem _ ho))]
  | hto g z content ih =>
    intro ox oy
    simp only [drawAbsolute, ih]
  | _ => intros; simp [drawAbsolute, h]

theorem drawLeaves_append (tr : String → String) (dv : DocViewer) (l1 l2 : List (Obj × ℚ × ℚ)) :
    drawLeaves tr dv (l1 ++ l2) = drawLeaves tr dv l1 ++ drawLeaves tr dv l2 := by
  induction l1 with
  | nil => simp [drawLeaves]
  | cons p l ih => simp [drawLeaves, ih]

theorem drawAbsolute_eq_drawLeaves (tr : String → String) (dv : DocViewer) (o : Obj) :
    ∀ ox oy, drawAbsolute tr dv o ox oy = drawLeaves tr dv (visibleLeaves o ox oy) := by
  induction o using Obj.induct with
  | hcont g objects ih =>
    intro ox oy
    simp only [drawAbsolute, visibleLeaves]
    cases hv : g.visible
    · simp [drawLeaves]
    · simp only [Bool.not_true, Bool.false_eq_true, if_false, if_true]
      generalize g.posX + ox = a
      generalize g.posY + oy = b
      induction objects with
      | nil => simp [drawAbsoluteList, visibleLeavesList, drawLeaves]
      | cons c l ihl =>
        simp only [drawAbsoluteList, visibleLeavesList, drawLeaves_append]
        rw [ih c (List.mem_cons_self _ _), ihl (fun o ho => ih o (List.mem_cons_of_mem _ ho))]
  | hto g z content ih =>
    intro ox oy
    simp only [drawAbsolute, visibleLeaves, ih]
    cases hv : g.visible <;> simp [drawLeaves]
  | hlabel g txt =>
    intro ox oy
    cases hv : g.visible <;> simp [drawAbsolute, visibleLeaves, drawLeaves, hv]
  | htext g txt size =>
    intro ox oy
    cases hv : g.visible <;> simp [drawAbsolute, visibleLeaves, drawLeaves, hv]
  | hsep g =>
    intro ox oy
    cases hv : g.visible <;> simp [drawAbsolute, visibleLeaves, drawLeaves, hv]
  | _ => intros; simp [drawAbsolute, visibleLeaves, drawLeaves]

theorem exportPages_eq_exportSpec (tr : String → String) (dv : DocViewer) (ps : List pageData) :
    exportPages tr dv ps = exportSpec tr dv ps := by
  induction ps with
  | nil => simp [exportPages, exportSpec]
  | cons p l ih => simp [exportPages, exportSpec, ih, drawAbsolute_eq_drawLeaves]

/-! ## Counting output pages -/

theorem drawAbsolute_no_AddPage (tr : String → String) (dv : DocViewer) (o : Obj) :
    ∀ ox oy, PdfCall.AddPage ∉ drawAbsolute tr dv o ox oy := by
  induction o using Obj.induct with
  | hcont g objects ih =>
    intro ox oy
    simp only [drawAbsolute]
    split
    · simp
    · generalize g.posX + ox = a
      generalize g.posY + oy = b
      induction objects with
      | nil => simp [drawAbsoluteList]
      | cons c l ihl =>
        simp only [drawAbsoluteList, List.mem_append, not_or]
        exact ⟨ih c (List.mem_cons_self _ _) a b,
          ihl (fun o ho => ih o (List.mem_cons_of_mem _ ho))⟩
  | hto g z content ih =>
    intro ox oy
    simp only [drawAbsolute]
    split
    · simp
    · exact ih ox oy
  | hlabel g txt => intro ox oy; simp only [drawAbsolute]; split <;> simp
  | htext g txt size => intro ox oy; simp only [drawAbsolute]; split <;> simp
  | hsep g => intro ox oy; simp only [drawAbsolute]; split <;> simp
  | _ => intros; simp [drawAbsolute]

theorem exportPages_count (tr : String → String) (dv : DocViewer) (ps : List pageData) :
    List.count PdfCall.AddPage (exportPages tr dv ps) = ps.length := by
  induction ps with
  | nil => simp [exportPages]
  | cons p l ih =>
    simp [exportPages, List.count_cons, ih,
      List.count_eq_zero_of_not_mem (drawAbsolute_no_AddPage tr dv p.cont 0 0)]

/-! ## Draw colour -/

theorem drawColourAfter_append (c : Colour) (l1 l2 : List PdfCall) :
    drawColourAfter c (l1 ++ l2) = drawColourAfter (drawColourAfter c l1) l2 := by
  induction l1 generalizing c with
  | nil => simp [drawColourAfter]
  | cons a l ih => simp [drawColourAfter, ih]

theorem withDrawColour_append (c : Colour) (l1 l2 : List PdfCall) :
    withDrawColour c (l1 ++ l2)
      = withDrawColour c l1 ++ withDrawColour (drawColourAfter c l1) l2 := by
  induction l1 generalizing c with
  | nil => simp [withDrawColour, drawColourAfter]
  | cons a l ih => simp [withDrawColour, drawColourAfter, ih]

theorem ColourDiscipline.nil : ColourDiscipline [] := by
  simp [ColourDiscipline, withDrawColour, drawColourAfter]

theorem ColourDiscipline.append {l1 l2 : List PdfCall} (h1 : ColourDiscipline l1)
    (h2 : ColourDiscipline l2) : ColourDiscipline (l1 ++ l2) := by
  refine ⟨?_, ?_⟩
  · intro v hv
    rw [withDrawColour_append, h1.2, List.mem_append] at hv
    rcases hv with hv | hv
    · exact h1.1 v hv
    · exact h2.1 v hv
  · rw [drawColourAfter_append, h1.2, h2.2]

theorem drawAbsolute_colour (tr : String → String) (dv : DocViewer) (o : Obj) :
    ∀ ox oy, ColourDiscipline (drawAbsolute tr dv o ox oy) := by
  induction o using Obj.induct with
  | hcont g objects ih =>
    intro ox oy
    simp only [drawAbsolute]
    split
    · exact ColourDiscipline.nil
    · generalize g.posX + ox = a
      generalize g.posY + oy = b
      induction objects with
      | nil => simpa [drawAbsoluteList] using ColourDiscipline.nil
      | cons c l ihl =>
        simp only [drawAbsoluteList]
        exact (ih c (List.mem_cons_self _ _) a b).append
          (ihl (fun o ho => ih o (List.mem_cons_of_mem _ ho)))
  | hto g z content ih =>
    intro ox oy
    simp only [drawAbsolute]
    split
    · exact ColourDiscipline.nil
    · exact ih ox oy
  | hlabel g txt =>
    intro ox oy; simp only [drawAbsolute]
    split <;> simp [ColourDiscipline, withDrawColour, drawColourAfter, PdfCall.colourAfter,
      PdfCall.isLine, PdfCall.setsLineState]
  | htext g txt size =>
    intro ox oy; simp only [drawAbsolute]
    split <;> simp [ColourDiscipline, withDrawColour, drawColourAfter, PdfCall.colourAfter,
      PdfCall.isLine, PdfCall.setsLineState]
  | hsep g =>
    intro ox oy; simp only [drawAbsolute]
    split <;> simp [ColourDiscipline, withDrawColour, drawColourAfter, PdfCall.colourAfter,
      PdfCall.isLine, PdfCall.setsLineState, black, gray]
  | _ => intros; simpa [drawAbsolute] using ColourDiscipline.nil

theorem exportPages_colour (tr : String → String) (dv : DocViewer) (ps : List pageData) :
    ColourDiscipline (exportPages tr dv ps) := by
  induction ps with
  | nil => simpa [exportPages] using ColourDiscipline.nil
  | cons p l ih =>
    have h1 : ColourDiscipline [PdfCall.AddPage] := by
      simp [ColourDiscipline, withDrawColour, drawColourAfter, PdfCall.colourAfter,
        PdfCall.isLine, PdfCall.setsLineState]
    have h := h1.append ((drawAbsolute_colour tr dv p.cont 0 0).append ih)
    simpa [exportPages] using h

/-! ## Membership in the output of the list loops -/

theorem mem_drawAbsoluteList (tr : String → String) (dv : DocViewer) (call : PdfCall)
    (objects : List Obj) (ox oy : ℚ) :
    call ∈ drawAbsoluteList tr dv objects ox oy
      ↔ ∃ o ∈ objects, call ∈ drawAbsolute tr dv o ox oy := by
  induction objects with
  | nil => simp [drawAbsoluteList]
  | cons a l ih => simp [drawAbsoluteList, ih]

theorem mem_containerTextSizesList (s : ℚ) (objects : List Obj) :
    s ∈ containerTextSizesList objects ↔ ∃ o ∈ objects, s ∈ containerTextSizes o := by
  induction objects with
  | nil => simp [containerTextSizesList]
  | cons a l ih => simp [containerTextSizesList, ih]

theorem noThemeOverrideList_iff (objects : List Obj) :
    noThemeOverrideList objects = true ↔ ∀ o ∈ objects, noThemeOverride o = true := by
  induction objects with
  | nil => simp [noThemeOverrideList]
  | cons a l ih => simp [noThemeOverrideList, ih]

theorem containerTextSizes_update (o : Obj) (z : ℚ) :
    ∀ s ∈ containerTextSizes (updateCanvasObjects o z), s = BaseFontSize * z := by
  induction o using Obj.induct with
  | hcont g objects ih =>
    intro s hs
    simp only [updateCanvasObjects, containerTextSizes, updateCanvasObjectsList_eq_map,
      mem_containerTextSizesList, List.mem_map] at hs
    obtain ⟨o2, ⟨o, ho, rfl⟩, hs⟩ := hs
    exact ih o ho s hs
  | _ => simp [updateCanvasObjects, containerTextSizes]

theorem drawAbsolute_update_fonts (tr : String → String) (dv : DocViewer) (o : Obj) :
    noThemeOverride o = true → ∀ ox oy, ∀ call ∈ drawAbsolute tr dv (updateCanvasObjects o dv.zoomFactor) ox oy,
      (∀ s, call.fontSize? = some s → s = BaseFontSize * dv.zoomFactor) ∧
      (∀ h, call.cellHeight? = some h → h = 7 * dv.zoomFactor) := by
  induction o using Obj.induct with
  | hcont g objects ih =>
    intro hn ox oy call hc
    simp only [noThemeOverride, noThemeOverrideList_iff] at hn
    simp only [updateCanvasObjects, drawAbsolute, updateCanvasObjectsList_eq_map] at hc
    split at hc
    · simp at hc
    · simp only [mem_drawAbsoluteList, List.mem_map] at hc
      obtain ⟨o2, ⟨o, ho, rfl⟩, hc⟩ := hc
      exact ih o ho (hn o ho) _ _ call hc
  | hto g z content _ => intro hn; simp [noThemeOverride] at hn
  | hlabel g txt =>
    intro _ ox oy call hc
    simp only [updateCanvasObjects, drawAbsolute] at hc
    split at hc
    · simp at hc
    · simp at hc
      rcases hc with rfl | rfl | rfl <;> simp [PdfCall.fontSize?, PdfCall.cellHeight?]
  | htext g txt size =>
    intro _ ox oy call hc
    simp only [updateCanvasObjects, drawAbsolute] at hc
    split at hc
    · simp at hc
    · simp at hc
      rcases hc with rfl | rfl | rfl <;> simp [PdfCall.fontSize?, PdfCall.cellHeight?, BaseFontSize]
      ring
  | hsep g =>
    intro _ ox oy call hc
    simp only [updateCanvasObjects, drawAbsolute] at hc
    split at hc
    · simp at hc
    · simp at hc
      rcases hc with rfl | rfl | rfl | rfl <;> simp [PdfCall.fontSize?, PdfCall.cellHeight?]
  | _ => intro _ ox oy call hc; simp [updateCanvasObjects, drawAbsolute] at hc

theorem visibleLeaves_update_nil (o : Obj) (z : ℚ) :
    ∀ ox oy, visibleLeaves o ox oy = [] → visibleLeaves (updateCanvasObjects o z) ox oy = [] := by
  induction o using Obj.induct with
  | hcont g objects ih =>
    intro ox oy h
    simp only [updateCanvasObjects, visibleLeaves] at h ⊢
    split
    · rename_i hv
      simp only [hv, if_true] at h
      revert h
      generalize g.posX + ox = a
      generalize g.posY + oy = b
      induction objects with
      | nil => simp [updateCanvasObjectsList, visibleLeavesList]
      | cons c l ihl =>
        simp only [updateCanvasObjectsList, visibleLeavesList, List.append_eq_nil]
        intro h
        exact ⟨ih c (List.mem_cons_self _ _) a b h.1,
          ihl (fun o ho => ih o (List.mem_cons_of_mem _ ho)) h.2⟩
    · rfl
  | htext g txt size =>
    intro ox oy h
    simp only [updateCanvasObjects, visibleLeaves] at h ⊢
    split at h
    · simp at h
    · rename_i hv; simp [hv]
  | _ => intro ox oy h; simpa [updateCanvasObjects] using h

theorem visibleLeaves_are_leaves (o : Obj) :
    ∀ ox oy, ∀ v ∈ visibleLeaves o ox oy, v.1.isLeaf = true ∧ v.1.Visible = true := by
  induction o using Obj.induct with
  | hcont g objects ih =>
    intro ox oy v hv
    simp only [visibleLeaves] at hv
    split at hv
    · revert hv
      generalize g.posX + ox = a
      generalize g.posY + oy = b
      induction objects with
      | nil => simp [visibleLeavesList]
      | cons c l ihl =>
        simp only [visibleLeavesList, List.mem_append]
        rintro (h | h)
        · exact ih c (List.mem_cons_self _ _) a b v h
        · exact ihl (fun o ho => ih o (List.mem_cons_of_mem _ ho)) h
    · simp at hv
  | hto g z content ih =>
    intro ox oy v hv
    simp only [visibleLeaves] at hv
    split at hv
    · exact ih ox oy v hv
    · simp at hv
  | hlabel g txt =>
    intro ox oy v hv
    simp only [visibleLeaves] at hv
    split at hv
    · simp at hv; subst hv; simpa [Obj.isLeaf, Obj.Visible]
    · simp at hv
  | htext g txt size =>
    intro ox oy v hv
    simp only [visibleLeaves] at hv
    split at hv
    · simp at hv; subst hv; simpa [Obj.isLeaf, Obj.Visible]
    · simp at hv
  | hsep g =>
    intro ox oy v hv
    simp only [visibleLeaves] at hv
    split at hv
    · simp at hv; subst hv; simpa [Obj.isLeaf, Obj.Visible]
    · simp at hv
  | _ => intro ox oy v hv; simp [visibleLeaves] at hv

theorem mem_exportPages (tr : String → String) (dv : DocViewer) (call : PdfCall)
    (ps : List pageData) :
    call ∈ exportPages tr dv ps
      → call = PdfCall.AddPage ∨ ∃ p ∈ ps, call ∈ drawAbsolute tr dv p.cont 0 0 := by
  induction ps with
  | nil => simp [exportPages]
  | cons p l ih =>
    simp only [exportPages, List.mem_cons, List.mem_append]
    rintro (h | h | h)
    · exact Or.inl h
    · exact Or.inr ⟨p, Or.inl rfl, h⟩
    · rcases ih h with h | ⟨q, hq, h⟩
      · exact Or.inl h
      · exact Or.inr ⟨q, Or.inr hq, h⟩

theorem SetZoom_eq (dv : DocViewer) (f : ℚ) :
    dv.SetZoom f
      = { pages := dv.pages.map (setZoomPage (max f (1 / 10))), zoomFactor := max f (1 / 10) } := by
  have hz : (if f < 1 / 10 then 1 / 10 else f) = max f (1 / 10) := by
    split
    · rename_i h; exact (max_eq_right (le_of_lt h)).symm
    · rename_i h; exact (max_eq_left (not_lt.1 h)).symm
  simp only [DocViewer.SetZoom, hz]


/-! ## What layout cannot change -/

theorem shapeList_eq_map (objects : List Obj) : shapeList objects = objects.map Obj.shape := by
  induction objects with
  | nil => simp [shapeList]
  | cons a l ih => simp [shapeList, ih]

theorem shape_update (o : Obj) (z : ℚ) :
    (updateCanvasObjects o z).shape = updateCanvasObjects o.shape z := by
  induction o using Obj.induct with
  | hcont g objects ih =>
    simp only [updateCanvasObjects, Obj.shape, shapeList_eq_map, updateCanvasObjectsList_eq_map,
      List.map_map]
    congr 1
    apply List.map_congr_left
    intro o ho
    exact ih o ho
  | _ => simp [updateCanvasObjects, Obj.shape]

theorem shape_eq_of_update {a b : Obj} (h : a.shape = b.shape) (z : ℚ) :
    (updateCanvasObjects a z).shape = (updateCanvasObjects b z).shape := by
  rw [shape_update, shape_update, h]

theorem shape_themeOverride_inv {o c0 : Obj} {g0 : Geom} {z : ℚ}
    (h : o.shape = .themeOverride g0 z c0) :
    ∃ g c, o = .themeOverride g z c ∧ g.shape = g0 ∧ c.shape = c0 := by
  cases o <;> simp [Obj.shape] at h
  obtain ⟨h1, h2, h3⟩ := h
  exact ⟨_, _, by rw [h2], h1, h3⟩

theorem shape_text_inv {o : Obj} {g0 : Geom} {txt : String} {size : ℚ}
    (h : o.shape = .text g0 txt size) : ∃ g, o = .text g txt size ∧ g.shape = g0 := by
  cases o <;> simp [Obj.shape] at h
  obtain ⟨h1, h2, h3⟩ := h
  exact ⟨_, by rw [h2, h3], h1⟩

theorem shape_label_inv {o : Obj} {g0 : Geom} {txt : String}
    (h : o.shape = .label g0 txt) : ∃ g, o = .label g txt ∧ g.shape = g0 := by
  cases o <;> simp [Obj.shape] at h
  obtain ⟨h1, h2⟩ := h
  exact ⟨_, by rw [h2], h1⟩

theorem Geom.visible_of_shape {g g2 : Geom} (h : g.shape = g2.shape) : g.visible = g2.visible := by
  simpa [Geom.shape] using h

theorem Visible_shape (o : Obj) : o.shape.Visible = o.Visible := by
  cases o <;> simp [Obj.shape, Obj.Visible, Geom.shape]

theorem child?_shape (o : Obj) (i : Nat) : o.shape.child? i = (o.child? i).map Obj.shape := by
  cases o with
  | container g objects => simp [Obj.shape, Obj.child?, shapeList_eq_map]
  | themeOverride g z c => cases i <;> simp [Obj.shape, Obj.child?]
  | _ => simp [Obj.shape, Obj.child?]

theorem descend_shape (path : List Nat) :
    ∀ (o o2 l : Obj), o.shape = o2.shape → descend o path = some l →
      ∃ l2, descend o2 path = some l2 ∧ l2.shape = l.shape := by
  induction path with
  | nil =>
    intro o o2 l h hd
    simp only [descend, Option.some.injEq] at hd
    subst hd
    exact ⟨o2, rfl, h.symm⟩
  | cons i rest ih =>
    intro o o2 l h hd
    have hc : (o.child? i).map Obj.shape = (o2.child? i).map Obj.shape := by
      rw [← child?_shape, ← child?_shape, h]
    simp only [descend] at hd ⊢
    cases h1 : o.child? i with
    | none => simp [h1] at hd
    | some c =>
      cases h2 : o2.child? i with
      | none => simp [h1, h2] at hc
      | some c2 =>
        simp only [h1, h2, Option.map_some', Option.some.injEq] at hc hd ⊢
        exact ih c c2 l hc hd

theorem ancestorsVisible_shape (path : List Nat) :
    ∀ (o o2 : Obj), o.shape = o2.shape → ancestorsVisible o path = ancestorsVisible o2 path := by
  induction path with
  | nil => intro o o2 _; simp [ancestorsVisible]
  | cons i rest ih =>
    intro o o2 h
    have hc : (o.child? i).map Obj.shape = (o2.child? i).map Obj.shape := by
      rw [← child?_shape, ← child?_shape, h]
    have hv : o.Visible = o2.Visible := by
      rw [← Visible_shape o, ← Visible_shape o2, h]
    simp only [ancestorsVisible]
    cases h1 : o.child? i with
    | none =>
      cases h2 : o2.child? i with
      | none => rfl
      | some c2 => simp [h1, h2] at hc
    | some c =>
      cases h2 : o2.child? i with
      | none => simp [h1, h2] at hc
      | some c2 =>
        simp only [h1, h2, Option.map_some', Option.some.injEq] at hc ⊢
        rw [hv, ih c c2 hc]

theorem descend_update_text (path : List Nat) (z : ℚ) :
    ∀ (c : Obj) (g : Geom) (txt : String) (size : ℚ), containersOnly c path = true →
      descend c path = some (.text g txt size) →
      descend (updateCanvasObjects c z) path = some (.text g txt (BaseFontSize * z)) := by
  induction path with
  | nil =>
    intro c g txt size _ hd
    simp only [descend, Option.some.injEq] at hd
    subst hd
    simp [descend, updateCanvasObjects]
  | cons i rest ih =>
    intro c g txt size hc hd
    cases c with
    | container gc objects =>
      simp only [containersOnly, descend, Obj.child?] at hc hd
      cases h1 : objects[i]? with
      | none => simp [h1] at hd
      | some ch =>
        simp only [h1] at hc hd
        simp only [updateCanvasObjects, descend, Obj.child?, updateCanvasObjectsList_eq_map,
          List.getElem?_map, h1, Option.map_some']
        exact ih ch g txt size hc hd
    | _ => simp [containersOnly] at hc

theorem ancestorsVisible_update (path : List Nat) (z : ℚ) :
    ∀ (c : Obj), containersOnly c path = true →
      ancestorsVisible (updateCanvasObjects c z) path = ancestorsVisible c path := by
  induction path with
  | nil => intro c _; simp [ancestorsVisible]
  | cons i rest ih =>
    intro c hc
    cases c with
    | container gc objects =>
      simp only [containersOnly] at hc
      cases h1 : objects[i]? with
      | none => simp [h1] at hc
      | some ch =>
        simp only [h1] at hc
        simp only [updateCanvasObjects, ancestorsVisible, Obj.child?,
          updateCanvasObjectsList_eq_map, List.getElem?_map, h1, Option.map_some', Obj.Visible]
        rw [ih ch hc]
    | _ => simp [containersOnly] at hc

theorem stored_text_rescaled (root c : Obj) (z : ℚ) (path : List Nat) (g : Geom) (txt : String)
    (size : ℚ) (hs : root.shape = (themedAt z c).shape)
    (hd : descend c path = some (.text g txt size)) (hc : containersOnly c path = true) :
    ∃ g2, g2.visible = g.visible ∧
      descend root (0 :: path) = some (.text g2 txt (BaseFontSize * z)) ∧
      ancestorsVisible root (0 :: path) = ancestorsVisible c path := by
  simp only [themedAt, Obj.shape] at hs
  obtain ⟨gw, c1, rfl, hgw, hc1⟩ := shape_themeOverride_inv hs
  have hgv : gw.visible = true := by
    have := Geom.visible_of_shape hgw
    simpa [freshGeom] using this
  obtain ⟨l2, hl2, hl2s⟩ := descend_shape path (updateCanvasObjects c z) c1 _ hc1.symm
    (descend_update_text path z c g txt size hc hd)
  simp only [Obj.shape] at hl2s
  obtain ⟨g2, rfl, hg2⟩ := shape_text_inv hl2s
  refine ⟨g2, ?_, ?_, ?_⟩
  · have := Geom.visible_of_shape hg2
    simpa [Geom.shape] using this
  · simpa [descend, Obj.child?] using hl2
  · simp only [ancestorsVisible, Obj.child?, Obj.Visible, hgv, Bool.true_and]
    rw [ancestorsVisible_shape path c1 (updateCanvasObjects c z) hc1,
      ancestorsVisible_update path z c hc]

/-! ## Backend calls up to positions and widths -/

theorem drawAbsoluteList_unplaced (tr : String → String) (dv : DocViewer) (objects : List Obj)
    (h : ∀ o ∈ objects, ∀ ox oy, (drawAbsolute tr dv o ox oy).map PdfCall.unplaced
      = (drawAbsolute tr dv o.shape 0 0).map PdfCall.unplaced) (a b : ℚ) :
    (drawAbsoluteList tr dv objects a b).map PdfCall.unplaced
      = (drawAbsoluteList tr dv (shapeList objects) 0 0).map PdfCall.unplaced := by
  induction objects with
  | nil => simp [drawAbsoluteList, shapeList]
  | cons c l ihl =>
    simp only [drawAbsoluteList, shapeList, List.map_append]
    rw [h c (List.mem_cons_self _ _), ihl (fun o ho => h o (List.mem_cons_of_mem _ ho))]

theorem drawAbsolute_unplaced (tr : String → String) (dv : DocViewer) (o : Obj) :
    ∀ ox oy, (drawAbsolute tr dv o ox oy).map PdfCall.unplaced
      = (drawAbsolute tr dv o.shape 0 0).map PdfCall.unplaced := by
  induction o using Obj.induct with
  | hcont g objects ih =>
    intro ox oy
    simp only [drawAbsolute, Obj.shape, Geom.shape]
    cases hv : g.visible
    · simp
    · simp only [Bool.not_true, Bool.false_eq_true, if_false, add_zero]
      exact drawAbsoluteList_unplaced tr dv objects ih _ _
  | hto g z content ih =>
    intro ox oy
    simp only [drawAbsolute, Obj.shape, Geom.shape]
    split
    · rfl
    · exact ih ox oy
  | hlabel g txt =>
    intro ox oy
    cases hv : g.visible <;> simp [drawAbsolute, Obj.shape, Geom.shape, hv, PdfCall.unplaced]
  | htext g txt size =>
    intro ox oy
    cases hv : g.visible <;> simp [drawAbsolute, Obj.shape, Geom.shape, hv, PdfCall.unplaced]
  | hsep g =>
    intro ox oy
    cases hv : g.visible <;> simp [drawAbsolute, Obj.shape, Geom.shape, hv, PdfCall.unplaced]
  | _ => intros; simp [drawAbsolute, Obj.shape]

theorem drawAbsolute_unplaced_of_shape (tr : String → String) (dv dv2 : DocViewer)
    (hz : dv.zoomFactor = dv2.zoomFactor) {a b : Obj} (h : a.shape = b.shape) (ox oy ox2 oy2 : ℚ) :
    (drawAbsolute tr dv a ox oy).map PdfCall.unplaced
      = (drawAbsolute tr dv2 b ox2 oy2).map PdfCall.unplaced := by
  rw [drawAbsolute_unplaced tr dv a, drawAbsolute_unplaced tr dv2 b, h,
    drawAbsolute_congr tr dv dv2 hz]

theorem exportPages_unplaced (tr : String → String) (dv dv2 : DocViewer)
    (hz : dv.zoomFactor = dv2.zoomFactor) :
    ∀ (ps qs : List pageData), ps.map pageData.frame = qs.map pageData.frame →
      (exportPages tr dv ps).map PdfCall.unplaced = (exportPages tr dv2 qs).map PdfCall.unplaced := by
  intro ps
  induction ps with
  | nil =>
    intro qs h
    cases qs with
    | nil => rfl
    | cons q l => simp at h
  | cons p l ih =>
    intro qs h
    cases qs with
    | nil => simp at h
    | cons q l2 =>
      simp only [List.map_cons, List.cons.injEq] at h
      have hs : p.cont.shape = q.cont.shape := by
        have := h.1
        simp only [pageData.frame, Prod.mk.injEq] at this
        exact this.2.2
      simp only [exportPages, List.map_cons, List.map_append]
      rw [ih l2 h.2, drawAbsolute_unplaced_of_shape tr dv dv2 hz hs 0 0 0 0]

theorem fontSize?_unplaced (call : PdfCall) : call.unplaced.fontSize? = call.fontSize? := by
  cases call <;> rfl

theorem cellHeight?_unplaced (call : PdfCall) : call.unplaced.cellHeight? = call.cellHeight? := by
  cases call <;> rfl

/-! ## The viewer after a sequence of API calls -/

theorem frame_setZoomPage (z z2 : ℚ) (p : pageData) (c : Obj)
    (h : p.frame = (pageAt z c).frame) : (setZoomPage z2 p).frame = (pageAt z2 c).frame := by
  simp only [pageData.frame, pageAt, Prod.mk.injEq] at h
  obtain ⟨gw, c1, hp, hgw, hc1⟩ := shape_themeOverride_inv
    (show p.cont.shape = .themeOverride freshGeom.shape z (updateCanvasObjects c z).shape from h.2.2)
  have h2 : (updateCanvasObjects c1 z2).shape = (updateCanvasObjects c z2).shape := by
    rw [shape_eq_of_update hc1 z2, updateCanvasObjects_twice]
  simp [pageData.frame, pageAt, setZoomPage, hp, paperAt, themedAt, Obj.shape, hgw, h2]

theorem runFrom_frames (tk : Toolkit) (ops : List Op) :
    ∀ (dv dv2 : DocViewer) (cs : List Obj),
      dv.pages.map pageData.frame = cs.map (fun c => (pageAt dv.zoomFactor c).frame) →
      runFrom tk dv ops = some dv2 →
      dv2.pages.map pageData.frame
        = (cs ++ addedContents ops).map (fun c => (pageAt dv2.zoomFactor c).frame) := by
  induction ops with
  | nil =>
    intro dv dv2 cs h hr
    simp only [runFrom, Option.some.injEq] at hr
    subst hr
    simpa [addedContents] using h
  | cons op rest ih =>
    intro dv dv2 cs h hr
    cases op with
    | addPage cont =>
      simp only [runFrom, Op.apply, DocViewer.AddPage] at hr
      cases hn : cont.isNil with
      | true => simp [hn] at hr
      | false =>
        simp only [hn, Bool.false_eq_true, if_false] at hr
        have h2 := ih _ dv2 (cs ++ [cont])
          (by simp [tk.keeps, h, pageData.frame, pageAt, paperAt, themedAt]) hr
        simpa [addedContents] using h2
    | setZoom f =>
      simp only [runFrom, Op.apply] at hr
      have h2 := ih _ dv2 cs
        (by
          simp only [DocViewer.refresh, tk.keeps, DocViewer.SetZoom, List.map_map]
          have h3 : ∀ (ps : List pageData) (ds : List Obj),
              ps.map pageData.frame = ds.map (fun c => (pageAt dv.zoomFactor c).frame) →
              ∀ z2, ps.map (pageData.frame ∘ setZoomPage z2)
                = ds.map (fun c => (pageAt z2 c).frame) := by
            intro ps
            induction ps with
            | nil =>
              intro ds hh z2
              cases ds with
              | nil => rfl
              | cons d l => simp at hh
            | cons p l ihp =>
              intro ds hh z2
              cases ds with
              | nil => simp at hh
              | cons d l2 =>
                simp only [List.map_cons, List.cons.injEq] at hh
                simp only [List.map_cons, Function.comp, List.cons.injEq]
                exact ⟨frame_setZoomPage _ z2 p d hh.1, ihp l2 hh.2 z2⟩
          exact h3 dv.pages cs h _) hr
      simpa [addedContents] using h2

theorem runOps_frames (tk : Toolkit) (ops : List Op) (dv : DocViewer)
    (h : runOps tk ops = some dv) :
    dv.pages.map pageData.frame
      = (addedContents ops).map (fun c => (pageAt dv.zoomFactor c).frame) := by
  have h2 := runFrom_frames tk ops NewDocViewer dv [] (by simp [NewDocViewer]) h
  simpa using h2

theorem runFrom_total (tk : Toolkit) (ops : List Op) :
    (∀ c ∈ addedContents ops, c ≠ Obj.nil) → ∀ dv, ∃ dv2, runFrom tk dv ops = some dv2 := by
  induction ops with
  | nil => intro _ dv; exact ⟨dv, rfl⟩
  | cons op rest ih =>
    intro h dv
    cases op with
    | addPage cont =>
      have hn : cont.isNil = false := by
        have := h cont (by simp [addedContents])
        cases cont <;> simp_all [Obj.isNil]
      have hr := ih (fun c hc => h c (by simp [addedContents, hc]))
      simp only [runFrom, Op.apply, DocViewer.AddPage, hn, Bool.false_eq_true, if_false]
      exact hr _
    | setZoom f =>
      have hr := ih (fun c hc => h c (by simpa [addedContents] using hc))
      simp only [runFrom, Op.apply]
      exact hr _

theorem runOps_export_unplaced (tk : Toolkit) (tr : String → String) (ops : List Op)
    (dv : DocViewer) (h : runOps tk ops = some dv) :
    (dv.ExportToPDF tr).map PdfCall.unplaced
      = (exportPages tr dv ((addedContents ops).map (pageAt dv.zoomFactor))).map
          PdfCall.unplaced := by
  apply exportPages_unplaced tr dv dv rfl
  rw [runOps_frames tk ops dv h, List.map_map]
  rfl

theorem runFrom_zoom (tk : Toolkit) (ops : List Op) :
    ∀ (dv dv2 : DocViewer), runFrom tk dv ops = some dv2 →
      dv2.zoomFactor = finalZoom dv.zoomFactor ops := by
  induction ops with
  | nil =>
    intro dv dv2 hr
    simp only [runFrom, Option.some.injEq] at hr
    subst hr
    rfl
  | cons op rest ih =>
    intro dv dv2 hr
    cases op with
    | addPage cont =>
      simp only [runFrom, Op.apply, DocViewer.AddPage] at hr
      cases hn : cont.isNil with
      | true => simp [hn] at hr
      | false =>
        simp only [hn, Bool.false_eq_true, if_false] at hr
        simpa [finalZoom] using ih _ dv2 hr
    | setZoom f =>
      simp only [runFrom, Op.apply] at hr
      have h := ih _ dv2 hr
      rw [h]
      simp [finalZoom, DocViewer.refresh, SetZoom_eq]

theorem pages_of_frames_singleton {ps : List pageData} {fr : ℚ × ℚ × Obj}
    (h : ps.map pageData.frame = [fr]) : ∃ p, ps = [p] ∧ p.frame = fr := by
  cases ps with
  | nil => simp at h
  | cons p l =>
    cases l with
    | nil => exact ⟨p, rfl, by simpa using h⟩
    | cons q l2 => simp at h

theorem frame_getElem? {ps : List pageData} {cs : List Obj} {z : ℚ}
    (h : ps.map pageData.frame = cs.map (fun c => (pageAt z c).frame)) {i : Nat} {c : Obj}
    {p : pageData} (hc : cs[i]? = some c) (hp : ps[i]? = some p) :
    p.cont.shape = (themedAt z c).shape := by
  have h2 : (ps.map pageData.frame)[i]? = (cs.map (fun c => (pageAt z c).frame))[i]? := by
    rw [h]
  simp only [List.getElem?_map, hc, hp, Option.map_some', Option.some.injEq, pageData.frame,
    pageAt, Prod.mk.injEq] at h2
  exact h2.2.2

theorem frame_mem {ps : List pageData} {cs : List Obj} {z : ℚ}
    (h : ps.map pageData.frame = cs.map (fun c => (pageAt z c).frame)) {p : pageData}
    (hp : p ∈ ps) : ∃ c ∈ cs, p.cont.shape = (themedAt z c).shape := by
  have h2 : p.frame ∈ ps.map pageData.frame := List.mem_map_of_mem _ hp
  rw [h, List.mem_map] at h2
  obtain ⟨c, hc, he⟩ := h2
  refine ⟨c, hc, ?_⟩
  simp only [pageData.frame, pageAt, Prod.mk.injEq] at he
  exact he.2.2.symm

theorem containerTextSizes_shape (o : Obj) : containerTextSizes o.shape = containerTextSizes o := by
  induction o using Obj.induct with
  | hcont g objects ih =>
    simp only [Obj.shape, containerTextSizes]
    induction objects with
    | nil => simp [shapeList, containerTextSizesList]
    | cons c l ihl =>
      simp only [shapeList, containerTextSizesList]
      rw [ih c (List.mem_cons_self _ _), ihl (fun o ho => ih o (List.mem_cons_of_mem _ ho))]
  | _ => simp [Obj.shape, containerTextSizes]

theorem drawAbsolute_themedAt_nil (tr : String → String) (dv : DocViewer) (c : Obj) (z : ℚ)
    (h : visibleLeaves c 0 0 = []) : drawAbsolute tr dv (themedAt z c) 0 0 = [] := by
  simp only [themedAt, drawAbsolute, freshGeom, Bool.not_true, Bool.false_eq_true, if_false]
  rw [drawAbsolute_eq_drawLeaves, visibleLeaves_update_nil c z 0 0 h]
  rfl

theorem exportPages_pageAt_fonts (tr : String → String) (dv : DocViewer) (cs : List Obj)
    (hn : ∀ c ∈ cs, noThemeOverride c = true) :
    ∀ call ∈ exportPages tr dv (cs.map (pageAt dv.zoomFactor)),
      (∀ s, call.fontSize? = some s → s = BaseFontSize * dv.zoomFactor) ∧
      (∀ h, call.cellHeight? = some h → h = 7 * dv.zoomFactor) := by
  intro call hc
  rcases mem_exportPages tr _ call _ hc with rfl | ⟨p, hp, hc⟩
  · simp [PdfCall.fontSize?, PdfCall.cellHeight?]
  · rw [List.mem_map] at hp
    obtain ⟨c, hcs, rfl⟩ := hp
    simp only [pageAt, themedAt, drawAbsolute, freshGeom, Bool.not_true, Bool.false_eq_true,
      if_false] at hc
    exact drawAbsolute_update_fonts tr dv c (hn c hcs) 0 0 call hc

/-! ## Properties of the specification -/

/-- C1: for a visible leaf at `path` below `root` all of whose ancestors are visible,
the walker started on `root` at offset `(0,0)` makes the calls for what precedes the
leaf, then the calls of the leaf entered with the sum of the positions of its
container ancestors as offset, then the calls for what follows; the absolute
position it converts for the leaf is the leaf's local position plus that sum, and
theme wrappers on the way add nothing. -/
theorem C1_offset_accumulation (tr : String → String) (dv : DocViewer) (root leaf : Obj)
    (path : List Nat) (hd : descend root path = some leaf)
    (ha : ancestorsVisible root path = true) (hv : leaf.Visible = true) :
    drawAbsolute tr dv root 0 0
        = callsBefore tr dv path root 0 0
          ++ drawAbsolute tr dv leaf (ancestorSumX root path) (ancestorSumY root path)
          ++ callsAfter tr dv path root 0 0 ∧
      (∀ g txt, leaf = .label g txt →
        drawAbsolute tr dv leaf (ancestorSumX root path) (ancestorSumY root path)
          = [ .SetFont "Arial" "" (BaseFontSize * dv.zoomFactor),
              .SetXY ((g.posX + ancestorSumX root path) * ratio + 10)
                ((g.posY + ancestorSumY root path) * ratio + 10),
              .MultiCell (g.width * ratio) (BaseFontSize * dv.zoomFactor * (4 / 10)) (tr txt)
                "" "L" false ]) ∧
      (∀ g txt size, leaf = .text g txt size →
        drawAbsolute tr dv leaf (ancestorSumX root path) (ancestorSumY root path)
          = [ .SetFont "Arial" "" size,
              .SetXY ((g.posX + ancestorSumX root path) * ratio + 10)
                ((g.posY + ancestorSumY root path) * ratio + 10),
              .CellFormat (g.width * ratio) (size * (5 / 10)) (tr txt) "" 0 "L" false 0 "" ]) ∧
      (∀ g, leaf = .separator g →
        drawAbsolute tr dv leaf (ancestorSumX root path) (ancestorSumY root path)
          = [ .SetDrawColor 180 180 180,
              .SetLineWidth (2 / 10),
              .Line ((g.posX + ancestorSumX root path) * ratio + 10)
                ((g.posY + ancestorSumY root path) * ratio + 10 + g.height * ratio / 2)
                ((g.posX + ancestorSumX root path) * ratio + 10 + g.width * ratio)
                ((g.posY + ancestorSumY root path) * ratio + 10 + g.height * ratio / 2),
              .SetDrawColor 0 0 0 ]) := by
  refine ⟨?_, ?_, ?_, ?_⟩
  · have h := walk_decompose tr dv path root leaf 0 0 hd ha
    simpa using h
  · rintro g txt rfl
    simp only [Obj.Visible] at hv
    simp [drawAbsolute, hv, pdfCoord, absCoord, objSize]
  · rintro g txt size rfl
    simp only [Obj.Visible] at hv
    simp [drawAbsolute, hv, pdfCoord, absCoord, objSize]
  · rintro g rfl
    simp only [Obj.Visible] at hv
    simp [drawAbsolute, hv, pdfCoord, absCoord, objSize]

/-- C1 at the styled text of `sampleTree`, below two containers and two theme wrappers. -/
theorem C1_offset_accumulation_witness :
    descend sampleTree [0, 1, 0, 1] = some sampleLeaf ∧
      ancestorsVisible sampleTree [0, 1, 0, 1] = true ∧
      ancestorSumX sampleTree [0, 1, 0, 1] = 11 ∧
      ancestorSumY sampleTree [0, 1, 0, 1] = 22 ∧
      drawAbsolute id NewDocViewer sampleLeaf (ancestorSumX sampleTree [0, 1, 0, 1])
          (ancestorSumY sampleTree [0, 1, 0, 1])
        = [ .SetFont "Arial" "" 14,
            .SetXY ((3 + ancestorSumX sampleTree [0, 1, 0, 1]) * ratio + 10)
              ((4 + ancestorSumY sampleTree [0, 1, 0, 1]) * ratio + 10),
            .CellFormat (200 * ratio) (14 * (5 / 10)) "Total: 100" "" 0 "L" false 0 "" ] :=
  ⟨rfl, rfl, by norm_num [ancestorSumX, sampleTree, Obj.child?, Obj.stepX],
    by norm_num [ancestorSumY, sampleTree, Obj.child?, Obj.stepY],
    (C1_offset_accumulation id NewDocViewer sampleTree sampleLeaf [0, 1, 0, 1] rfl rfl rfl).2.2.1
      ⟨3, 4, 200, 20, true⟩ "Total: 100" 14 rfl⟩

/-- C2: the walker entered on a node whose visibility flag is false makes no backend
call at all, whatever the node's kind and whatever lies below it; inside a container
the output is the same as if the node were not stored, a theme wrapper around it
draws nothing, and a page with it as root yields only the new-page call. -/
theorem C2_invisible_subtree_skipped (tr : String → String) (dv : DocViewer) (o : Obj)
    (ox oy : ℚ) (h : o.Visible = false) :
    drawAbsolute tr dv o ox oy = [] ∧
      (∀ g l1 l2, drawAbsolute tr dv (.container g (l1 ++ o :: l2)) ox oy
        = drawAbsolute tr dv (.container g (l1 ++ l2)) ox oy) ∧
      (∀ g z, drawAbsolute tr dv (.themeOverride g z o) ox oy = []) ∧
      (∀ r, exportPages tr dv [{ rect := r, cont := o }] = [PdfCall.AddPage]) := by
  refine ⟨drawAbsolute_invisible tr dv o ox oy h, ?_, ?_, ?_⟩
  · intro g l1 l2
    simp only [drawAbsolute]
    split
    · rfl
    · simp [drawAbsoluteList_append, drawAbsoluteList, drawAbsolute_invisible tr dv o _ _ h]
  · intro g z
    simp [drawAbsolute, drawAbsolute_invisible tr dv o _ _ h]
  · intro r
    simp [exportPages, drawAbsolute_invisible tr dv o _ _ h]

/-- C2 at an invisible container holding a visible label and at an invisible theme wrapper. -/
theorem C2_invisible_subtree_skipped_witness :
    drawAbsolute id NewDocViewer
        (.container ⟨1, 2, 30, 40, false⟩ [.label ⟨0, 0, 10, 10, true⟩ "shown?"]) 5 6 = [] ∧
      drawAbsolute id NewDocViewer
        (.themeOverride ⟨1, 2, 30, 40, false⟩ 1 (.separator ⟨0, 0, 10, 10, true⟩)) 5 6 = [] :=
  ⟨(C2_invisible_subtree_skipped id NewDocViewer
      (.container ⟨1, 2, 30, 40, false⟩ [.label ⟨0, 0, 10, 10, true⟩ "shown?"]) 5 6 rfl).1,
    (C2_invisible_subtree_skipped id NewDocViewer
      (.themeOverride ⟨1, 2, 30, 40, false⟩ 1 (.separator ⟨0, 0, 10, 10, true⟩)) 5 6 rfl).1⟩

/-- C3: for a visible leaf with local position `(g.posX, g.posY)` entered at offset
`(ox, oy)`, hence absolute screen position `(g.posX + ox, g.posY + oy)`, and for any
viewer zoom, the page coordinates handed to the backend are the absolute ones times
`210/595` plus `10`, and width and height are scaled by `210/595` without margin.
A viewer at zoom `1.0` whose one page holds a styled text "Total: 100" of size `14` at
`(50,50)`, sized `(200,20)`, exports exactly the new-page call and one cell at
`50 * (210/595) + 10` of height `7`; when that text is handed to `AddPage` as the page
content, whatever position and size the toolkit's layout gives it, the export is
still the new-page call and one cell of font `14` and height `7`, placed by the same
conversion. -/
theorem C3_page_coordinates (tr : String → String) (dv : DocViewer) (g : Geom) (ox oy : ℚ)
    (hv : g.visible = true) :
    (∀ txt, drawAbsolute tr dv (.label g txt) ox oy
        = [ .SetFont "Arial" "" (14 * dv.zoomFactor),
            .SetXY ((g.posX + ox) * (210 / 595) + 10) ((g.posY + oy) * (210 / 595) + 10),
            .MultiCell (g.width * (210 / 595)) (14 * dv.zoomFactor * (4 / 10)) (tr txt)
              "" "L" false ]) ∧
      (∀ txt size, drawAbsolute tr dv (.text g txt size) ox oy
        = [ .SetFont "Arial" "" size,
            .SetXY ((g.posX + ox) * (210 / 595) + 10) ((g.posY + oy) * (210 / 595) + 10),
            .CellFormat (g.width * (210 / 595)) (size * (5 / 10)) (tr txt) "" 0 "L" false 0 "" ]) ∧
      drawAbsolute tr dv (.separator g) ox oy
        = [ .SetDrawColor 180 180 180,
            .SetLineWidth (2 / 10),
            .Line ((g.posX + ox) * (210 / 595) + 10)
              ((g.posY + oy) * (210 / 595) + 10 + g.height * (210 / 595) / 2)
              ((g.posX + ox) * (210 / 595) + 10 + g.width * (210 / 595))
              ((g.posY + oy) * (210 / 595) + 10 + g.height * (210 / 595) / 2),
            .SetDrawColor 0 0 0 ] ∧
      (∀ (r : Rectangle) (gw : Geom), gw.visible = true →
        DocViewer.ExportToPDF tr
            { pages := [{ rect := r
                          cont := .themeOverride gw 1
                            (.text ⟨50, 50, 200, 20, true⟩ "Total: 100" 14) }]
              zoomFactor := 1 }
          = [ .AddPage,
              .SetFont "Arial" "" 14,
              .SetXY (50 * (210 / 595) + 10) (50 * (210 / 595) + 10),
              .CellFormat (200 * (210 / 595)) 7 (tr "Total: 100") "" 0 "L" false 0 "" ]) ∧
      (∀ tk : Toolkit, ∃ (dv2 : DocViewer) (g2 : Geom),
        runOps tk [.addPage (.text ⟨50, 50, 200, 20, true⟩ "Total: 100" 14)] = some dv2 ∧
        g2.visible = true ∧
        dv2.ExportToPDF tr
          = [ .AddPage,
              .SetFont "Arial" "" 14,
              .SetXY (g2.posX * (210 / 595) + 10) (g2.posY * (210 / 595) + 10),
              .CellFormat (g2.width * (210 / 595)) 7 (tr "Total: 100") "" 0 "L" false 0 "" ]) := by
  refine ⟨?_, ?_, ?_, ?_, ?_⟩
  · intro txt
    simp [drawAbsolute, hv, pdfCoord, absCoord, objSize, ratio, A4WidthBase, BaseFontSize]
  · intro txt size
    simp [drawAbsolute, hv, pdfCoord, absCoord, objSize, ratio, A4WidthBase]
  · simp [drawAbsolute, hv, pdfCoord, absCoord, objSize, ratio, A4WidthBase]
  · intro r gw hgw
    simp [DocViewer.ExportToPDF, exportPages, drawAbsolute, hgw, pdfCoord, absCoord, objSize,
      ratio, A4WidthBase]
    norm_num
  · intro tk
    obtain ⟨dv2, hdv⟩ := runFrom_total tk
      [.addPage (.text ⟨50, 50, 200, 20, true⟩ "Total: 100" 14)]
      (by simp [addedContents]) NewDocViewer
    have hz : dv2.zoomFactor = 1 := by
      rw [runFrom_zoom tk _ _ _ hdv]; rfl
    have hf := runOps_frames tk _ dv2 hdv
    simp only [addedContents, List.map_cons, List.map_nil, hz] at hf
    obtain ⟨p, hp, hpf⟩ := pages_of_frames_singleton hf
    simp only [pageData.frame, pageAt, themedAt, updateCanvasObjects, Obj.shape,
      Prod.mk.injEq] at hpf
    obtain ⟨gw, c1, hpc, hgw, hc1⟩ := shape_themeOverride_inv hpf.2.2
    obtain ⟨g2, rfl, hg2⟩ := shape_text_inv hc1
    have hgwv : gw.visible = true := by
      have := Geom.visible_of_shape hgw; simpa [freshGeom] using this
    have hg2v : g2.visible = true := by
      have := Geom.visible_of_shape hg2; simpa [Geom.shape] using this
    refine ⟨dv2, g2, hdv, hg2v, ?_⟩
    simp [DocViewer.ExportToPDF, hp, exportPages, hpc, drawAbsolute, hgwv, hg2v, pdfCoord,
      absCoord, objSize, ratio, A4WidthBase, BaseFontSize]
    norm_num

/-- C3 at a styled text at `(50,50)` of size `(200,20)` entered at offset `(0,0)`. -/
theorem C3_page_coordinates_witness :
    drawAbsolute id NewDocViewer (.text ⟨50, 50, 200, 20, true⟩ "Total: 100" 14) 0 0
      = [ .SetFont "Arial" "" 14,
          .SetXY ((50 + 0) * (210 / 595) + 10) ((50 + 0) * (210 / 595) + 10),
          .CellFormat (200 * (210 / 595)) (14 * (5 / 10)) "Total: 100" "" 0 "L" false 0 "" ] :=
  (C3_page_coordinates id NewDocViewer ⟨50, 50, 200, 20, true⟩ 0 0 rfl).2.1 "Total: 100" 14

/-- C5: after `SetZoom f` the zoom factor `GetZoom` returns is `max f (1/10)`, for
every rational `f`; the operation is total and applies no upper bound. -/
theorem C5_zoom_clamp (dv : DocViewer) (f : ℚ) : (dv.SetZoom f).GetZoom = max f (1 / 10) := by
  simp only [DocViewer.SetZoom, DocViewer.GetZoom]
  split
  · rename_i h; exact (max_eq_right (le_of_lt h)).symm
  · rename_i h; exact (max_eq_left (not_lt.1 h)).symm

/-- C4 (amended): `SetZoom f`, with `z = max f (1/10)`, gives every stored page
rectangle minimum size and size `(595 z, 842 z)`, and under every page root that is
a theme wrapper (as every page stored by `AddPage` is) the wrapper carries `z` and
every styled text reachable from the wrapped content through containers only has
font size `14 z`; minimum size, wrapper zoom and these font sizes are still so after
the layout pass of the toolkit.  In particular, for any content tree added at zoom `1.0` and any
styled text in it below containers only, after `SetZoom 2` the stored page holds at
the same place that text with font size `28`, and when the text and its ancestors
are visible the export emits it with font size `28` and cell height `14`, whatever
positions and sizes the toolkit's layout has assigned. -/
theorem C4_setZoom_rescales (tr : String → String) (dv : DocViewer) (f : ℚ) :
    (∀ p ∈ (dv.SetZoom f).pages,
        p.rect.minW = 595 * max f (1 / 10) ∧ p.rect.minH = 842 * max f (1 / 10) ∧
        p.rect.sizeW = 595 * max f (1 / 10) ∧ p.rect.sizeH = 842 * max f (1 / 10) ∧
        ∀ g zm c, p.cont = .themeOverride g zm c →
          zm = max f (1 / 10) ∧ ∀ s ∈ containerTextSizes c, s = 14 * max f (1 / 10)) ∧
      (∀ (tk : Toolkit), ∀ p ∈ ((dv.SetZoom f).refresh tk).pages,
        p.rect.minW = 595 * max f (1 / 10) ∧ p.rect.minH = 842 * max f (1 / 10) ∧
        ∀ g zm c, p.cont = .themeOverride g zm c →
          zm = max f (1 / 10) ∧ ∀ s ∈ containerTextSizes c, s = 14 * max f (1 / 10)) ∧
      (∀ (tk : Toolkit) (c : Obj) (path : List Nat) (g : Geom) (txt : String) (size : ℚ),
        c ≠ Obj.nil → descend c path = some (.text g txt size) →
        containersOnly c path = true →
        ∃ (dv2 : DocViewer) (p : pageData) (g2 : Geom),
          runOps tk [.addPage c, .setZoom 2] = some dv2 ∧ dv2.pages = [p] ∧
          g2.visible = g.visible ∧
          descend p.cont (0 :: path) = some (.text g2 txt 28) ∧
          (g.visible = true → ancestorsVisible c path = true →
            dv2.ExportToPDF tr
              = .AddPage ::
                (callsBefore tr dv2 (0 :: path) p.cont 0 0
                  ++ [ .SetFont "Arial" "" 28,
                       .SetXY (pdfCoord g2.posX (ancestorSumX p.cont (0 :: path)))
                         (pdfCoord g2.posY (ancestorSumY p.cont (0 :: path))),
                       .CellFormat (objSize g2.width) 14 (tr txt) "" 0 "L" false 0 "" ]
                  ++ callsAfter tr dv2 (0 :: path) p.cont 0 0))) := by
  have hz : (if f < 1 / 10 then 1 / 10 else f) = max f (1 / 10) := by
    split
    · rename_i h; exact (max_eq_right (le_of_lt h)).symm
    · rename_i h; exact (max_eq_left (not_lt.1 h)).symm
  have h1 : ∀ p ∈ (dv.SetZoom f).pages,
      p.rect.minW = 595 * max f (1 / 10) ∧ p.rect.minH = 842 * max f (1 / 10) ∧
      p.rect.sizeW = 595 * max f (1 / 10) ∧ p.rect.sizeH = 842 * max f (1 / 10) ∧
      ∀ g zm c, p.cont = .themeOverride g zm c →
        zm = max f (1 / 10) ∧ ∀ s ∈ containerTextSizes c, s = 14 * max f (1 / 10) := by
    intro p hp
    simp only [DocViewer.SetZoom, hz, List.mem_map] at hp
    obtain ⟨q, _, rfl⟩ := hp
    refine ⟨by simp [setZoomPage, A4WidthBase], by simp [setZoomPage, A4HeightBase],
      by simp [setZoomPage, A4WidthBase], by simp [setZoomPage, A4HeightBase], ?_⟩
    intro g zm c hc
    cases hq : q.cont with
    | themeOverride g2 z2 c2 =>
      simp only [setZoomPage, hq, Obj.themeOverride.injEq] at hc
      obtain ⟨_, rfl, rfl⟩ := hc
      refine ⟨rfl, ?_⟩
      have h := containerTextSizes_update c2 (max f (1 / 10))
      simpa [BaseFontSize] using h
    | _ => simp [setZoomPage, hq] at hc
  refine ⟨h1, ?_, ?_⟩
  · intro tk p hp
    have hm : p.frame ∈ (tk.relayout (dv.SetZoom f).pages).map pageData.frame :=
      List.mem_map_of_mem _ hp
    rw [tk.keeps, List.mem_map] at hm
    obtain ⟨q, hq, hqf⟩ := hm
    simp only [pageData.frame, Prod.mk.injEq] at hqf
    obtain ⟨hq1, hq2, hq3, hq4, hq5⟩ := h1 q hq
    refine ⟨by rw [← hqf.1]; exact hq1, by rw [← hqf.2.1]; exact hq2, ?_⟩
    intro g zm c hc
    have hs : q.cont.shape = .themeOverride g.shape zm c.shape := by
      rw [hqf.2.2, hc]; simp [Obj.shape]
    obtain ⟨g2, c2, hqc, _, hc2⟩ := shape_themeOverride_inv hs
    obtain ⟨hzm, hsz⟩ := hq5 g2 zm c2 hqc
    refine ⟨hzm, ?_⟩
    intro s hs2
    rw [← containerTextSizes_shape, ← hc2, containerTextSizes_shape] at hs2
    exact hsz s hs2
  · intro tk c path g txt size hne hd hco
    obtain ⟨dv2, hdv⟩ := runFrom_total tk [.addPage c, .setZoom 2]
      (by simpa [addedContents] using hne) NewDocViewer
    have hz2 : dv2.zoomFactor = 2 := by
      rw [runFrom_zoom tk _ _ _ hdv]
      norm_num [finalZoom]
    have hf := runOps_frames tk _ dv2 hdv
    simp only [addedContents, List.map_cons, List.map_nil, hz2] at hf
    obtain ⟨p, hp, hpf⟩ := pages_of_frames_singleton hf
    have hs : p.cont.shape = (themedAt 2 c).shape := by
      simp only [pageData.frame, pageAt, Prod.mk.injEq] at hpf
      exact hpf.2.2
    obtain ⟨g2, hg2, hd2, ha2⟩ := stored_text_rescaled p.cont c 2 path g txt size hs hd hco
    have h28 : BaseFontSize * 2 = 28 := by norm_num [BaseFontSize]
    rw [h28] at hd2
    refine ⟨dv2, p, g2, hdv, hp, hg2, hd2, ?_⟩
    intro hgv hav
    have hw := walk_decompose tr dv2 (0 :: path) p.cont (.text g2 txt 28) 0 0 hd2
      (by rw [ha2]; exact hav)
    have hg2v : g2.visible = true := by rw [hg2]; exact hgv
    simp only [DocViewer.ExportToPDF, hp, exportPages, List.append_nil]
    rw [hw]
    simp only [drawAbsolute, hg2v, Bool.not_true, Bool.false_eq_true, if_false, add_zero]
    norm_num

/-- C4 (amended) at a page holding a container with a styled text of size `10`. -/
theorem C4_setZoom_rescales_witness :
    ∃ (dv2 : DocViewer) (p : pageData) (g2 : Geom),
      runOps paddedFill
          [.addPage (.container ⟨0, 0, 1, 1, true⟩ [.text ⟨0, 0, 1, 1, true⟩ "a" 10]),
           .setZoom 2] = some dv2 ∧
        dv2.pages = [p] ∧ g2.visible = true ∧
        descend p.cont [0, 0] = some (.text g2 "a" 28) :=
  match (C4_setZoom_rescales id NewDocViewer 2).2.2 paddedFill
      (.container ⟨0, 0, 1, 1, true⟩ [.text ⟨0, 0, 1, 1, true⟩ "a" 10]) [0]
      ⟨0, 0, 1, 1, true⟩ "a" 10 (by simp) rfl rfl with
  | ⟨dv2, p, g2, h1, h2, h3, h4, _⟩ => ⟨dv2, p, g2, h1, h2, h3, h4⟩

/-- C4 as stated fails: in a viewer whose page holds a styled text of size `10` below
a theme wrapper of its own, the text keeps size `10` after `SetZoom 2`; and when that
tree is added with `AddPage` at zoom `1.0`, then `SetZoom 2` and export, the text is
emitted with font size `10` and cell height `5`, not `28` and `14`, under every
layout of the toolkit. -/
theorem C4_counterexample :
    ¬ (∀ p ∈ (nestedViewer.SetZoom 2).pages,
        ∀ s ∈ allTextSizes p.cont, s = 14 * max 2 (1 / 10)) ∧
      ((nestedViewer.SetZoom 2).pages.map (fun p => allTextSizes p.cont)) = [[10]] ∧
      (nestedViewer.SetZoom 2).GetZoom = 2 ∧
      (∀ tk : Toolkit, ∃ dv,
        runOps tk [.addPage nestedWrapperPage, .setZoom 2] = some dv ∧
        (dv.ExportToPDF id).map PdfCall.unplaced
          = [ .AddPage,
              .SetFont "Arial" "" 10,
              .SetXY 0 0,
              .CellFormat 0 5 "Total: 100" "" 0 "L" false 0 "" ]) := by
  refine ⟨?_, ?_, ?_, ?_⟩
  · simp [nestedViewer, DocViewer.SetZoom, setZoomPage,
      nestedWrapperPage, updateCanvasObjects, updateCanvasObjectsList, allTextSizes,
      allTextSizesList]
    norm_num
  · simp [nestedViewer, DocViewer.SetZoom, setZoomPage,
      nestedWrapperPage, updateCanvasObjects, updateCanvasObjectsList, allTextSizes,
      allTextSizesList]
  · norm_num [nestedViewer, DocViewer.SetZoom, DocViewer.GetZoom]
  · intro tk
    obtain ⟨dv, hdv⟩ := runFrom_total tk [.addPage nestedWrapperPage, .setZoom 2]
      (by simp [addedContents, nestedWrapperPage]) NewDocViewer
    refine ⟨dv, hdv, ?_⟩
    rw [runOps_export_unplaced tk id _ dv hdv]
    simp [addedContents, pageAt, themedAt, nestedWrapperPage, updateCanvasObjects,
      updateCanvasObjectsList, exportPages, drawAbsolute, drawAbsoluteList, freshGeom,
      PdfCall.unplaced]
    norm_num

/-- C6: `SetZoom f` applied twice leaves the same viewer state as `SetZoom f` applied
once: the same zoom factor, the same page rectangles, the same wrapper zoom
multipliers and the same content trees, hence the same text size on every node. -/
theorem C6_setZoom_idempotent (dv : DocViewer) (f : ℚ) :
    (dv.SetZoom f).SetZoom f = dv.SetZoom f := by
  have hp : ∀ (z : ℚ) (p : pageData), setZoomPage z (setZoomPage z p) = setZoomPage z p := by
    intro z p
    cases hq : p.cont <;> simp [setZoomPage, hq, updateCanvasObjects_twice]
  simp only [DocViewer.SetZoom, List.map_map]
  congr 1
  apply List.map_congr_left
  intro p _
  exact hp _ p

/-- C7: every sequence of `AddPage` and `SetZoom` calls with non-nil content trees
succeeds, and afterwards the stored pages are the added content trees in `AddPage`
order (each wrapped and rescaled to the current zoom, up to the positions and sizes
the toolkit's layout assigns).  The calls `ExportToPDF` makes are, page by page in
that order, one new-page call followed by the draw actions of the visible leaves of
the page in depth-first stored-child order (each of them a visible text label,
styled text or separator); up to positions and widths they are the calls for the
added trees themselves.  The number of new-page calls is the number of `AddPage`
calls, and a page added with a content tree without visible leaves yields its
new-page call and no draw call. -/
theorem C7_export_page_order (tk : Toolkit) (tr : String → String) (ops : List Op)
    (hne : ∀ c ∈ addedContents ops, c ≠ Obj.nil) :
    ∃ dv, runOps tk ops = some dv ∧
      dv.GetZoom = finalZoom 1 ops ∧
      dv.pages.map pageData.frame
        = (addedContents ops).map (fun c => (pageAt dv.GetZoom c).frame) ∧
      dv.ExportToPDF tr = exportSpec tr dv dv.pages ∧
      (∀ p ∈ dv.pages, ∀ v ∈ visibleLeaves p.cont 0 0,
        v.1.isLeaf = true ∧ v.1.Visible = true) ∧
      (dv.ExportToPDF tr).map PdfCall.unplaced
        = (exportSpec tr dv ((addedContents ops).map (pageAt dv.GetZoom))).map
            PdfCall.unplaced ∧
      List.count PdfCall.AddPage (dv.ExportToPDF tr) = (addedContents ops).length ∧
      (∀ (i : Nat) (c : Obj) (p : pageData), (addedContents ops)[i]? = some c → dv.pages[i]? = some p →
        visibleLeaves c 0 0 = [] → exportPages tr dv [p] = [PdfCall.AddPage]) := by
  obtain ⟨dv, hdv⟩ := runFrom_total tk ops hne NewDocViewer
  have hf := runOps_frames tk ops dv hdv
  refine ⟨dv, hdv, runFrom_zoom tk ops _ _ hdv, hf, exportPages_eq_exportSpec tr _ _,
    fun p _ => visibleLeaves_are_leaves p.cont 0 0, ?_, ?_, ?_⟩
  · rw [← exportPages_eq_exportSpec]
    exact runOps_export_unplaced tk tr ops dv hdv
  · rw [DocViewer.ExportToPDF, exportPages_count]
    have := congrArg List.length hf
    simpa using this
  · intro i c p hc hp hl
    have hs := frame_getElem? hf hc hp
    have h1 := drawAbsolute_unplaced_of_shape tr dv dv rfl hs 0 0 0 0
    rw [drawAbsolute_themedAt_nil tr dv c _ hl] at h1
    have h2 : drawAbsolute tr dv p.cont 0 0 = [] := by
      simpa using h1
    simp [exportPages, h2]

/-- C7 at two added pages with a zoom change in between, then an empty container. -/
theorem C7_export_page_order_witness :
    (∀ c ∈ addedContents [.addPage sampleTree, .setZoom 2, .addPage sampleLeaf,
        .addPage (.container ⟨0, 0, 10, 10, true⟩ [])], c ≠ Obj.nil) ∧
      ∃ dv, runOps paddedFill [.addPage sampleTree, .setZoom 2, .addPage sampleLeaf,
          .addPage (.container ⟨0, 0, 10, 10, true⟩ [])] = some dv ∧
        List.count PdfCall.AddPage (dv.ExportToPDF id) = 3 :=
  ⟨by simp [addedContents, sampleTree, sampleLeaf],
    match C7_export_page_order paddedFill id [.addPage sampleTree, .setZoom 2,
        .addPage sampleLeaf, .addPage (.container ⟨0, 0, 10, 10, true⟩ [])]
        (by simp [addedContents, sampleTree, sampleLeaf]) with
    | ⟨dv, h1, _, _, _, _, _, h7, _⟩ => ⟨dv, h1, h7⟩⟩

/-- C8: on a visible text label the walker selects font size `14 * zoom` with `zoom`
the viewer's zoom factor at export time, moves to the computed page coordinates and
emits a left-aligned multi-line block of the converted width and line height
`0.4 * (14 * zoom)`; the zoom stored on an enclosing theme wrapper plays no part, and
a label added as page content at one zoom and exported after `SetZoom f` gets font
size `14 * max f (1/10)`, at the position and width the toolkit's layout gave it. -/
theorem C8_label_font_size (tr : String → String) (dv : DocViewer) (g : Geom) (txt : String)
    (ox oy : ℚ) (hv : g.visible = true) :
    drawAbsolute tr dv (.label g txt) ox oy
        = [ .SetFont "Arial" "" (14 * dv.GetZoom),
            .SetXY (pdfCoord g.posX ox) (pdfCoord g.posY oy),
            .MultiCell (objSize g.width) (4 / 10 * (14 * dv.GetZoom)) (tr txt) "" "L" false ] ∧
      (∀ gw zw, gw.visible = true →
        drawAbsolute tr dv (.themeOverride gw zw (.label g txt)) ox oy
          = [ .SetFont "Arial" "" (14 * dv.GetZoom),
              .SetXY (pdfCoord g.posX ox) (pdfCoord g.posY oy),
              .MultiCell (objSize g.width) (4 / 10 * (14 * dv.GetZoom)) (tr txt) "" "L" false ]) ∧
      (∀ (tk : Toolkit) (z0 f : ℚ), ∃ (dv2 : DocViewer) (g2 : Geom),
        runOps tk [.setZoom z0, .addPage (.label g txt), .setZoom f] = some dv2 ∧
        g2.visible = true ∧
        dv2.ExportToPDF tr
          = [ .AddPage,
              .SetFont "Arial" "" (14 * max f (1 / 10)),
              .SetXY (pdfCoord g2.posX 0) (pdfCoord g2.posY 0),
              .MultiCell (objSize g2.width) (4 / 10 * (14 * max f (1 / 10))) (tr txt)
                "" "L" false ]) := by
  have hl : ∀ dv2 : DocViewer, drawAbsolute tr dv2 (.label g txt) ox oy
      = [ .SetFont "Arial" "" (14 * dv2.GetZoom),
          .SetXY (pdfCoord g.posX ox) (pdfCoord g.posY oy),
          .MultiCell (objSize g.width) (4 / 10 * (14 * dv2.GetZoom)) (tr txt) "" "L" false ] := by
    intro dv2
    simp [drawAbsolute, hv, BaseFontSize, DocViewer.GetZoom, mul_comm]
  refine ⟨hl dv, ?_, ?_⟩
  · intro gw zw hw
    simp only [drawAbsolute, hw, Bool.not_true, Bool.false_eq_true, if_false]
    exact hl dv
  · intro tk z0 f
    obtain ⟨dv2, hdv⟩ := runFrom_total tk [.setZoom z0, .addPage (.label g txt), .setZoom f]
      (by simp [addedContents]) NewDocViewer
    have hz : dv2.zoomFactor = max f (1 / 10) := by
      rw [runFrom_zoom tk _ _ _ hdv]; rfl
    have hf := runOps_frames tk _ dv2 hdv
    simp only [addedContents, List.map_cons, List.map_nil, hz] at hf
    obtain ⟨p, hp, hpf⟩ := pages_of_frames_singleton hf
    simp only [pageData.frame, pageAt, themedAt, updateCanvasObjects, Obj.shape,
      Prod.mk.injEq] at hpf
    obtain ⟨gw, c1, hpc, hgw, hc1⟩ := shape_themeOverride_inv hpf.2.2
    obtain ⟨g2, rfl, hg2⟩ := shape_label_inv hc1
    have hgwv : gw.visible = true := by
      have := Geom.visible_of_shape hgw; simpa [freshGeom] using this
    have hg2v : g2.visible = true := by
      have := Geom.visible_of_shape hg2; simpa [Geom.shape, hv] using this
    refine ⟨dv2, g2, hdv, hg2v, ?_⟩
    simp [DocViewer.ExportToPDF, hp, exportPages, hpc, drawAbsolute, hgwv, hg2v, hz,
      BaseFontSize, mul_comm]

/-- C8 at a label added at zoom `3` and exported after `SetZoom 2`. -/
theorem C8_label_font_size_witness :
    ∃ (dv2 : DocViewer) (g2 : Geom),
      runOps paddedFill [.setZoom 3, .addPage (.label ⟨5, 6, 100, 10, true⟩ "Header"),
          .setZoom 2] = some dv2 ∧
        g2.visible = true ∧
        dv2.ExportToPDF id
          = [ .AddPage,
              .SetFont "Arial" "" (14 * max 2 (1 / 10)),
              .SetXY (pdfCoord g2.posX 0) (pdfCoord g2.posY 0),
              .MultiCell (objSize g2.width) (4 / 10 * (14 * max 2 (1 / 10))) "Header"
                "" "L" false ] :=
  (C8_label_font_size id NewDocViewer ⟨5, 6, 100, 10, true⟩ "Header" 0 0 rfl).2.2
    paddedFill 3 2

/-- C9: with the backend entered in black, during `ExportToPDF` every line is drawn
while the draw colour is gray `(180,180,180)`, every call other than a line and the
line-state setters (every new-page, font, cursor, text block and text cell call) is
made while it is black, and it is black when the walk ends; a visible separator
draws its line from `(pdfX, pdfY + objH/2)` to `(pdfX + objW, pdfY + objH/2)` between
setting gray and restoring black. -/
theorem C9_draw_colour_restored (tr : String → String) (dv : DocViewer) :
    (∀ v ∈ withDrawColour black (dv.ExportToPDF tr),
        (v.2.isLine = true → v.1 = gray) ∧
        (v.2.isLine = false → v.2.setsLineState = false → v.1 = black)) ∧
      drawColourAfter black (dv.ExportToPDF tr) = black ∧
      (∀ g ox oy, g.visible = true →
        drawAbsolute tr dv (.separator g) ox oy
          = [ .SetDrawColor 180 180 180,
              .SetLineWidth (2 / 10),
              .Line (pdfCoord g.posX ox) (pdfCoord g.posY oy + objSize g.height / 2)
                (pdfCoord g.posX ox + objSize g.width)
                (pdfCoord g.posY oy + objSize g.height / 2),
              .SetDrawColor 0 0 0 ]) := by
  have h := exportPages_colour tr dv dv.pages
  refine ⟨h.1, h.2, ?_⟩
  intro g ox oy hv
  simp [drawAbsolute, hv]

/-- C9 at a viewer whose page holds a separator followed by a label: the colour at
each call. -/
theorem C9_draw_colour_restored_witness :
    withDrawColour black
        (DocViewer.ExportToPDF id
          { pages := [pageAt 1 (.container ⟨0, 0, 100, 100, true⟩
              [.separator ⟨0, 0, 100, 4, true⟩, .label ⟨0, 10, 100, 10, true⟩ "x"])]
            zoomFactor := 1 })
      = [ (black, .AddPage),
          (black, .SetDrawColor 180 180 180),
          (gray, .SetLineWidth (2 / 10)),
          (gray, .Line (pdfCoord 0 0) (pdfCoord 0 0 + objSize 4 / 2)
            (pdfCoord 0 0 + objSize 100) (pdfCoord 0 0 + objSize 4 / 2)),
          (gray, .SetDrawColor 0 0 0),
          (black, .SetFont "Arial" "" 14),
          (black, .SetXY (pdfCoord 0 0) (pdfCoord 10 0)),
          (black, .MultiCell (objSize 100) (14 * (4 / 10)) "x" "" "L" false) ] ∧
      drawAbsolute id NewDocViewer (.separator ⟨0, 0, 100, 4, true⟩) 0 0
        = [ .SetDrawColor 180 180 180,
            .SetLineWidth (2 / 10),
            .Line (pdfCoord 0 0) (pdfCoord 0 0 + objSize 4 / 2)
              (pdfCoord 0 0 + objSize 100) (pdfCoord 0 0 + objSize 4 / 2),
            .SetDrawColor 0 0 0 ] :=
  ⟨by
    simp [pageAt, themedAt, DocViewer.ExportToPDF, exportPages, drawAbsolute,
      drawAbsoluteList, updateCanvasObjects, updateCanvasObjectsList, freshGeom, withDrawColour,
      PdfCall.colourAfter, black, gray, BaseFontSize],
    (C9_draw_colour_restored id NewDocViewer).2.2 ⟨0, 0, 100, 4, true⟩ 0 0 rfl⟩

/-- C10: every sequence of `AddPage` and `SetZoom` calls with non-nil content trees
on a new viewer succeeds, and afterwards the stored pages are the added trees in
order, each under a visible theme wrapper carrying the current zoom; every styled
text reachable from the wrapped content through containers only has font size
`14 * GetZoom`, and a styled text that was in an added tree below containers only
is found at the same place of the stored page with font size `14 * GetZoom`,
whatever size it was created with.  If no added content tree contains a theme
wrapper, every font selected during export has size `14 * GetZoom` (the size used
for labels) and every text cell has height `7 * GetZoom`; up to positions and
widths the export is that of the added trees rescaled to the current zoom. -/
theorem C10_addPage_overwrites_text_size (tk : Toolkit) (tr : String → String)
    (ops : List Op) (hne : ∀ c ∈ addedContents ops, c ≠ Obj.nil) :
    ∃ dv, runOps tk ops = some dv ∧
      dv.GetZoom = finalZoom 1 ops ∧
      dv.pages.map pageData.frame
        = (addedContents ops).map (fun c => (pageAt dv.GetZoom c).frame) ∧
      (∀ p ∈ dv.pages, ∃ g c,
        p.cont = .themeOverride g dv.GetZoom c ∧ g.visible = true ∧
        ∀ s ∈ containerTextSizes c, s = 14 * dv.GetZoom) ∧
      (∀ (i : Nat) (c : Obj) (p : pageData) (path : List Nat) (g : Geom) (txt : String)
          (size : ℚ),
        (addedContents ops)[i]? = some c → dv.pages[i]? = some p →
        descend c path = some (.text g txt size) → containersOnly c path = true →
        ∃ g2 : Geom, g2.visible = g.visible ∧
          descend p.cont (0 :: path) = some (.text g2 txt (14 * dv.GetZoom))) ∧
      (dv.ExportToPDF tr).map PdfCall.unplaced
        = (exportPages tr dv ((addedContents ops).map (pageAt dv.GetZoom))).map
            PdfCall.unplaced ∧
      ((∀ c ∈ addedContents ops, noThemeOverride c = true) →
        ∀ call ∈ dv.ExportToPDF tr,
          (∀ s, call.fontSize? = some s → s = 14 * dv.GetZoom) ∧
          (∀ h, call.cellHeight? = some h → h = 7 * dv.GetZoom)) := by
  obtain ⟨dv, hdv⟩ := runFrom_total tk ops hne NewDocViewer
  have hf := runOps_frames tk ops dv hdv
  have hu := runOps_export_unplaced tk tr ops dv hdv
  refine ⟨dv, hdv, runFrom_zoom tk ops _ _ hdv, hf, ?_, ?_, hu, ?_⟩
  · intro p hp
    obtain ⟨c, _, hs⟩ := frame_mem hf hp
    simp only [themedAt, Obj.shape] at hs
    obtain ⟨gw, c1, hpc, hgw, hc1⟩ := shape_themeOverride_inv hs
    refine ⟨gw, c1, hpc, ?_, ?_⟩
    · have := Geom.visible_of_shape hgw; simpa [freshGeom] using this
    · intro s hs2
      rw [← containerTextSizes_shape, hc1, containerTextSizes_shape] at hs2
      have h := containerTextSizes_update c dv.zoomFactor s hs2
      simpa [BaseFontSize, DocViewer.GetZoom] using h
  · intro i c p path g txt size hc hp hd hco
    have hs := frame_getElem? hf hc hp
    obtain ⟨g2, hg2, hd2, _⟩ := stored_text_rescaled p.cont c _ path g txt size hs hd hco
    exact ⟨g2, hg2, by simpa [BaseFontSize, DocViewer.GetZoom] using hd2⟩
  · intro hn call hc
    have h1 : call.unplaced ∈ (dv.ExportToPDF tr).map PdfCall.unplaced :=
      List.mem_map_of_mem _ hc
    rw [hu, List.mem_map] at h1
    obtain ⟨call2, hc2, he⟩ := h1
    have h2 := exportPages_pageAt_fonts tr dv (addedContents ops) hn call2 hc2
    have hfs : call.fontSize? = call2.fontSize? := by
      rw [← fontSize?_unplaced call, ← fontSize?_unplaced call2, he]
    have hch : call.cellHeight? = call2.cellHeight? := by
      rw [← cellHeight?_unplaced call, ← cellHeight?_unplaced call2, he]
    rw [hfs, hch]
    simpa [BaseFontSize, DocViewer.GetZoom] using h2

/-- C10 at a styled text created with size `99`, added at zoom `1.0`, then `SetZoom 2`:
it is exported with font size `28` and cell height `14`. -/
theorem C10_addPage_overwrites_text_size_witness :
    (∀ c ∈ addedContents [.addPage (.text ⟨1, 2, 30, 10, true⟩ "t" 99), .setZoom 2],
        c ≠ Obj.nil) ∧
      ∃ dv, runOps paddedFill [.addPage (.text ⟨1, 2, 30, 10, true⟩ "t" 99), .setZoom 2]
          = some dv ∧
        (dv.ExportToPDF id).map PdfCall.unplaced
          = [ .AddPage,
              .SetFont "Arial" "" 28,
              .SetXY 0 0,
              .CellFormat 0 14 "t" "" 0 "L" false 0 "" ] :=
  ⟨by simp [addedContents],
    match C10_addPage_overwrites_text_size paddedFill id
        [.addPage (.text ⟨1, 2, 30, 10, true⟩ "t" 99), .setZoom 2]
        (by simp [addedContents]) with
    | ⟨dv, h1, hz, _, _, _, hu, _⟩ =>
      ⟨dv, h1, by
        rw [hu, hz]
        simp [addedContents, finalZoom, pageAt, themedAt, updateCanvasObjects, exportPages,
          drawAbsolute, freshGeom, PdfCall.unplaced, BaseFontSize]
        norm_num⟩⟩


end MGReport
